import Mathlib

/-!
Verification development for the blps SDK dumper.

The source program walks a reflection graph inside a foreign process and
emits Rust source text: structs with exact offsets and padding, packed
boolean bitfields, deduplicated enums, and wrapper functions.  This file
shallowly embeds the parts of the program under `src/` that the claims
concern: the hook-side bit accessors (src/hook/bitfield.rs), the property
classifier (src/dump/property_info.rs), the bitfield grouping and accessor
synthesis (src/dump/bitfield.rs), the helpers (src/dump/helper.rs), and the
dump driver with its enum / struct / class writers (src/dump/mod.rs).

Foreign pointers are modelled by `Option` payloads (`none` = null), name
table resolution by `Option String` (`none` = missing name), and the text
sink by structured output values.  All names are assumed ASCII, which holds
for the reflection graph this program consumes.
-/

namespace Blps

/-! ## Decimal and hexadecimal rendering

Models the `{}` and `{:#x}` format specifiers used by the dumper
(`format!("{}_{}", name, count)`, `format!("pad_at_{:#x}", offset)`, ...).
-/

/-- One decimal digit character for `n % 10`. -/
def decDigit (n : Nat) : Char :=
  match n % 10 with
  | 0 => '0' | 1 => '1' | 2 => '2' | 3 => '3' | 4 => '4'
  | 5 => '5' | 6 => '6' | 7 => '7' | 8 => '8' | 9 => '9'
  | _ => '0'

/-- Fuelled digit recursion (structural, so that concrete renderings reduce
inside the kernel); the fuel bounds the number of divisions by 10. -/
def decCharsAux : Nat → Nat → List Char
  | 0, _ => []
  | fuel + 1, n =>
    if n < 10 then [decDigit n]
    else decCharsAux fuel (n / 10) ++ [decDigit (n % 10)]

/-- Decimal digit list of `n`, most significant first; models `format!("{}", n)`. -/
def decChars (n : Nat) : List Char := decCharsAux (n + 1) n

/-- Decimal rendering of a `Nat`, as the Rust `Display` impl for integers. -/
def decRepr (n : Nat) : String := String.mk (decChars n)

/-- One lowercase hexadecimal digit character for `n % 16`. -/
def hexDigit (n : Nat) : Char :=
  match n % 16 with
  | 0 => '0' | 1 => '1' | 2 => '2' | 3 => '3' | 4 => '4'
  | 5 => '5' | 6 => '6' | 7 => '7' | 8 => '8' | 9 => '9'
  | 10 => 'a' | 11 => 'b' | 12 => 'c' | 13 => 'd' | 14 => 'e' | 15 => 'f'
  | _ => '0'

/-- Fuelled hex digit recursion (structural for kernel reduction). -/
def hexCharsAux : Nat → Nat → List Char
  | 0, _ => []
  | fuel + 1, n =>
    if n < 16 then [hexDigit n]
    else hexCharsAux fuel (n / 16) ++ [hexDigit (n % 16)]

/-- Hex digit list of `n`, most significant first. -/
def hexChars (n : Nat) : List Char := hexCharsAux (n + 1) n

/-- Models the `{:#x}` format specifier: `0x` followed by lowercase hex digits. -/
def fmtHex (n : Nat) : String := "0x" ++ String.mk (hexChars n)

/-! ## The heck crate: word splitting and case conversion

`write_enumeration` applies `heck::CamelCase::to_camel_case` to variant
names and `Bitfield::emit` applies `heck::SnakeCase::to_snake_case` to
accessor names.  The heck transform splits the input on non-alphanumeric
characters, splits each alphanumeric run at case boundaries
(lowercase-to-uppercase, and before the last uppercase of an uppercase run
followed by lowercase), then recombines the words.  Modelled for ASCII.
-/

/-- Models Rust `str::starts_with` (ASCII). -/
def strStartsWith (s p : String) : Bool := p.toList.isPrefixOf s.toList

/-- Models Rust `str::ends_with` (ASCII). -/
def strEndsWith (s p : String) : Bool :=
  p.toList.reverse.isPrefixOf s.toList.reverse

/-- A character that belongs to a word; models `char::is_alphanumeric` (ASCII). -/
def isWordChar (c : Char) : Bool := c.isAlphanum

/-- Split a character list on non-alphanumeric separators, keeping empty pieces,
as Rust `str::split(|c| !c.is_alphanumeric())`. -/
def splitNonAlnumGo (cur : List Char) : List Char → List (List Char)
  | [] => [cur.reverse]
  | c :: cs =>
    if isWordChar c then splitNonAlnumGo (c :: cur) cs
    else cur.reverse :: splitNonAlnumGo [] cs

/-- The scanning mode of the heck word-boundary pass. -/
inductive WordMode where
  | boundary
  | lower
  | upper
deriving DecidableEq

/-- Split one alphanumeric run at heck case boundaries.  `mode` is the mode of
the previous cased character, `acc` the reversed current word. -/
def heckSplitGo (mode : WordMode) (acc : List Char) : List Char → List (List Char)
  | [] => if acc.isEmpty then [] else [acc.reverse]
  | [c] => [(c :: acc).reverse]
  | c :: next :: rest =>
    let nextMode : WordMode :=
      if c.isLower then .lower else if c.isUpper then .upper else mode
    if nextMode = .lower && next.isUpper then
      (c :: acc).reverse :: heckSplitGo .boundary [] (next :: rest)
    else if mode = .upper && c.isUpper && next.isLower then
      acc.reverse :: heckSplitGo .boundary [c] (next :: rest)
    else
      heckSplitGo nextMode (c :: acc) (next :: rest)

/-- All heck words of a string: split on separators, then at case boundaries,
dropping empty pieces as the heck scanner does. -/
def heckWords (s : String) : List (List Char) :=
  ((splitNonAlnumGo [] s.toList).map (heckSplitGo .boundary [])).flatten.filter
    (fun w => !w.isEmpty)

/-- Capitalize one word: first character uppercased, the rest lowercased. -/
def capitalizeWord : List Char → List Char
  | [] => []
  | c :: cs => c.toUpper :: cs.map Char.toLower

/-- Models `heck::CamelCase::to_camel_case` (ASCII). -/
def toCamelCase (s : String) : String :=
  String.mk ((heckWords s).map capitalizeWord).flatten

/-- Models `heck::SnakeCase::to_snake_case` (ASCII): lowercased words joined by
underscores. -/
def toSnakeCase (s : String) : String :=
  String.intercalate "_" ((heckWords s).map (fun w => String.mk (w.map Char.toLower)))

/-! ## `get_unique_name` (src/dump/mod.rs lines 298-306)

Per-scope name deduplication.  The `HashMap<&str, u8>` of the source is
modelled by an association list; only point lookups and updates are
performed on it, so iteration order does not matter.  The `u8` counter is
modelled by `Nat` reduced modulo 256 at each increment — the release-mode
wrapping of `*c += 1` — so the 257th occurrence of one raw name reads
count 0 again and is emitted bare.
-/

/-- Look up the stored count for `name`. -/
def lookupCount : List (String × Nat) → String → Option Nat
  | [], _ => none
  | (k, v) :: rest, name => if k = name then some v else lookupCount rest name

/-- Increment the stored `u8` count for `name`, wrapping at 256 (no-op when
absent). -/
def bumpCount : List (String × Nat) → String → List (String × Nat)
  | [], _ => []
  | (k, v) :: rest, name =>
    if k = name then (k, (v + 1) % 256) :: rest else (k, v) :: bumpCount rest name

/-- Models `get_unique_name`: on first sight of `name` insert count 0 and
return the bare name; on a repeat, increment the `u8` count (wrapping at
256) and return `name_count` — or the bare name again once the count has
wrapped back to 0. -/
def get_unique_name (counts : List (String × Nat)) (name : String) :
    List (String × Nat) × String :=
  match lookupCount counts name with
  | none => ((name, 0) :: counts, name)
  | some c =>
    let counts := bumpCount counts name
    let count := (c + 1) % 256
    (counts, if count = 0 then name else name ++ "_" ++ decRepr count)

/-- Fold `get_unique_name` over a sequence of raw names, as every emitting
scope (struct fields, enum variants, methods, parameters) does. -/
def uniqueNamesGo (counts : List (String × Nat)) : List String → List String
  | [] => []
  | n :: ns =>
    let (counts, out) := get_unique_name counts n
    out :: uniqueNamesGo counts ns

/-- The emitted identifiers for a sequence of raw names in one scope. -/
def uniqueNames (names : List String) : List String := uniqueNamesGo [] names

/-! ## src/hook/bitfield.rs

The backing value is a `u32`; it is modelled as a `Nat` (callers keep it
below `2 ^ 32`; `|||` and `&&&` cannot overflow).  The claims constrain the
bit index below 32, where the Rust shift cannot overflow either.
-/

/-- Models `is_bit_set`. -/
def is_bit_set (bitfield : Nat) (bit : Nat) : Bool :=
  let mask := 1 <<< bit
  bitfield &&& mask == mask

/-- Models `set_bit`; `!mask` on `u32` is `(2 ^ 32 - 1) ^^^ mask`. -/
def set_bit (bitfield : Nat) (bit : Nat) (value : Bool) : Nat :=
  let mask := 1 <<< bit
  if value then bitfield ||| mask
  else bitfield &&& ((2 ^ 32 - 1) ^^^ mask)

/-! ## The property graph (src/game.rs)

A property node carries the fields of `game::Property` that the dumper
reads, plus the payload of its most-derived runtime class.  The runtime
class dispatch chain of `PropertyInfo::try_from` (a sequence of
`property.is(STATIC_CLASS)` tests) is modelled by the constructor tag;
the tests are mutually exclusive on the game classes except that
`ClassProperty` inherits `ObjectProperty`, and the source tests
`CLASS_PROPERTY` first, which the tag ordering reproduces.  Nullable
foreign pointers are `Option` payloads; names resolved through the global
name table are `Option String` (`none` = null or unset name slot).
-/

/-- The `game::Struct` a `StructProperty` references: its resolved name and
its `property_size` field (the declared byte size). -/
structure StructRef where
  name : Option String
  property_size : Nat
deriving DecidableEq, Repr

/-- The common `game::Property` fields read by the dumper. -/
structure PropCore where
  name : Option String
  array_dim : Nat
  element_size : Nat
  offset : Nat
deriving DecidableEq, Repr

/-- A property node tagged with its most-derived runtime class and that
class's payload.  For the reference-like kinds the payload is the resolved
name of the referenced node (`none` = null pointer; `some none` = non-null
node whose own name slot is null). -/
inductive PropNode where
  | arrayProp (core : PropCore) (inner : Option PropNode)
  | boolProp (core : PropCore) (bitmask : Nat)
  | byteProp (core : PropCore) (enumeration : Option (Option String))
  | classProp (core : PropCore) (meta_class : Option (Option String))
  | delegateProp (core : PropCore)
  | floatProp (core : PropCore)
  | intProp (core : PropCore)
  | interfaceProp (core : PropCore) (klass : Option (Option String))
  | mapProp (core : PropCore) (key : Option PropNode) (value : Option PropNode)
  | nameProp (core : PropCore)
  | objectProp (core : PropCore) (klass : Option (Option String))
  | strProp (core : PropCore)
  | structProp (core : PropCore) (inner_struct : Option StructRef)
  | unknownProp (core : PropCore)

/-- The common fields of a property node. -/
def PropNode.core : PropNode → PropCore
  | .arrayProp c _ => c
  | .boolProp c _ => c
  | .byteProp c _ => c
  | .classProp c _ => c
  | .delegateProp c => c
  | .floatProp c => c
  | .intProp c => c
  | .interfaceProp c _ => c
  | .mapProp c _ _ => c
  | .nameProp c => c
  | .objectProp c _ => c
  | .strProp c => c
  | .structProp c _ => c
  | .unknownProp c => c

def PropNode.name (p : PropNode) : Option String := p.core.name

def PropNode.array_dim (p : PropNode) : Nat := p.core.array_dim

def PropNode.element_size (p : PropNode) : Nat := p.core.element_size

def PropNode.offset (p : PropNode) : Nat := p.core.offset

/-- The bitmask of a `BoolProperty`, `none` for every other kind; models the
guarded `cast::<BoolProperty>` of the source. -/
def PropNode.boolMask : PropNode → Option Nat
  | .boolProp _ m => some m
  | _ => none

/-- Models `property.is(BOOL_PROPERTY)`. -/
def PropNode.isBool (p : PropNode) : Bool := p.boolMask.isSome

/-! ## The property classifier (src/dump/property_info.rs)

Byte sizes are those of the 32-bit target the dumper is injected into:
`size_of::<usize>() = 4`, `Array<T> = { data, count, max } = 12`,
`FString = Array<u16> = 12`, `NameIndex = { index, number } = 8`.
-/

def SIZE_OF_USIZE : Nat := 4
def SIZE_OF_ARRAY : Nat := 12
def SIZE_OF_FSTRING : Nat := 12
def SIZE_OF_NAME_INDEX : Nat := 8
def SIZE_OF_F32 : Nat := 4
def SIZE_OF_I32 : Nat := 4
def SIZE_OF_U8 : Nat := 1
def SIZE_OF_U32 : Nat := 4

/-- Modelled from the spec: `game::ScriptDelegate` is referenced by the
generated code but declared outside src/; it is the source runtime's
delegate record (object pointer plus name index), 12 bytes on the 32-bit
target. -/
def SIZE_OF_SCRIPT_DELEGATE : Nat := 12

/-- Modelled from the spec: `game::ScriptInterface` is referenced by the
generated code but declared outside src/; it is the source runtime's
interface record (object pointer plus interface pointer), 8 bytes on the
32-bit target. -/
def SIZE_OF_SCRIPT_INTERFACE : Nat := 8

/-- `const MAP_SIZE_BYTES: u32 = 20`. -/
def MAP_SIZE_BYTES : Nat := 20

/-- The error enum of src/dump/property_info.rs.  The offending node
addresses carried by the source variants are not modelled. -/
inductive PIErr where
  | nullArrayInner
  | nullInterfaceClass
  | nullMetaClass
  | nullMapKeyProperty
  | nullMapValueProperty
  | nullName
  | nullPropertyClass
  | nullPropertyStruct
  | staticClassNotFound
  | unknownProperty
deriving DecidableEq, Repr

/-- Classifier result: byte size, emitted field type, attached comment. -/
structure PropertyInfo where
  size : Nat
  field_type : String
  comment : String
deriving DecidableEq, Repr

/-- Models the local `get_name` of property_info.rs. -/
def piGetName : Option String → Except PIErr String
  | some n => .ok n
  | none => .error .nullName

/-- The string `'static`, built without an apostrophe literal. -/
def lifetimeStatic : String := String.mk (Char.ofNat 39 :: "static".toList)

/-- `format!("Option<&'static {}>", name)`. -/
def optionStaticRef (name : String) : String :=
  "Option<&" ++ lifetimeStatic ++ " " ++ name ++ ">"

/-- Models `PropertyInfo::try_from(&Property)`. -/
def PropertyInfo.try_from : PropNode → Except PIErr PropertyInfo
  | .arrayProp _ inner =>
    match inner with
    | some innerP => do
      let innerInfo ← PropertyInfo.try_from innerP
      let typ := "Array<" ++ innerInfo.field_type ++ ">"
      pure ⟨SIZE_OF_ARRAY, typ, innerInfo.comment⟩
    | none => .error .nullArrayInner
  | .boolProp _ _ =>
    -- not "bool" because bool properties are u32 bitfields.
    pure ⟨SIZE_OF_U32, "u32", ""⟩
  | .byteProp _ enumeration =>
    match enumeration with
    | none => pure ⟨SIZE_OF_U8, "u8", ""⟩
    | some en => do
      let typ ← piGetName en
      pure ⟨SIZE_OF_U8, typ, ""⟩
  | .classProp _ meta_class =>
    match meta_class with
    | none => .error .nullMetaClass
    | some mc => do
      let name ← piGetName mc
      pure ⟨SIZE_OF_USIZE, optionStaticRef name, ""⟩
  | .delegateProp _ => pure ⟨SIZE_OF_SCRIPT_DELEGATE, "ScriptDelegate", ""⟩
  | .floatProp _ => pure ⟨SIZE_OF_F32, "f32", ""⟩
  | .intProp _ => pure ⟨SIZE_OF_I32, "i32", ""⟩
  | .interfaceProp _ klass =>
    match klass with
    | none => .error .nullInterfaceClass
    | some k => do
      let comment ← piGetName k
      pure ⟨SIZE_OF_SCRIPT_INTERFACE, "ScriptInterface", comment⟩
  | .mapProp _ key value =>
    match key with
    | none => .error .nullMapKeyProperty
    | some k =>
      match value with
      | none => .error .nullMapValueProperty
      | some v => do
        let ki ← PropertyInfo.try_from k
        let vi ← PropertyInfo.try_from v
        let typ := "[u8; " ++ decRepr MAP_SIZE_BYTES ++ "]"
        pure ⟨MAP_SIZE_BYTES, typ,
          "Map<" ++ ki.field_type ++ ", " ++ vi.field_type ++ ">"⟩
  | .nameProp _ => pure ⟨SIZE_OF_NAME_INDEX, "NameIndex", ""⟩
  | .objectProp _ klass =>
    match klass with
    | none => .error .nullPropertyClass
    | some k => do
      let name ← piGetName k
      pure ⟨SIZE_OF_USIZE, optionStaticRef name, ""⟩
  | .strProp _ => pure ⟨SIZE_OF_FSTRING, "FString", ""⟩
  | .structProp core inner_struct =>
    match inner_struct with
    | none => .error .nullPropertyStruct
    | some sref => do
      let typ ← piGetName sref.name
      pure ⟨core.element_size, typ, ""⟩
  | .unknownProp _ => .error .unknownProperty

/-- Modelled from the spec: `PropertyInfo::into_typed_comment` is called by
the dump writers but defined outside src/; per the spec the classifier
yields a semantic type plus a comment, the comment attached to the emitted
type text when present and dropped when empty. -/
def intoTypedComment (info : PropertyInfo) : String :=
  if info.comment = "" then info.field_type
  else info.field_type ++ " /* " ++ info.comment ++ " */"

/-! ## Helpers (src/dump/helper.rs) -/

/-- The error enum of src/dump/helper.rs (node addresses not modelled). -/
inductive HelperErr where
  | moduleSubmodule
  | nullName
  | staticClassNotFound
  | unknownPackage
deriving DecidableEq, Repr

/-- Models `helper::get_name`. -/
def get_name : Option String → Except HelperErr String
  | some n => .ok n
  | none => .error .nullName

/-- The fixed literal denylist `DUPLICATES` of `resolve_duplicate`. -/
def DUPLICATES : List String :=
  ["ECompareObjectOutputLinkIds", "EFlightMode", "CheckpointRecord",
   "TerrainWeightedMaterial", "ProjectileBehaviorSequenceStateData"]

/-- Models `Object::iter_outer`: the node itself followed by its outer chain
up to the root.  `selfName` is the name slot of the node, `outers` the name
slots of its ancestors, nearest first. -/
def iterOuter (selfName : Option String) (outers : List (Option String)) :
    List (Option String) :=
  selfName :: outers

/-- The `for outer in iter_outer { submodule = module; module = Some(outer) }`
loop of `resolve_duplicate`: returns the final `(module, submodule)` pair. -/
def moduleLoop (chain : List (Option String)) :
    Option (Option String) × Option (Option String) :=
  chain.foldl (fun ms outer => (some outer, ms.fst)) (none, none)

/-- Models `helper::resolve_duplicate`. -/
def resolve_duplicate (selfName : Option String)
    (outers : List (Option String)) : Except HelperErr String := do
  let name ← get_name selfName
  if name ∈ DUPLICATES then
    let (module?, submodule?) := moduleLoop (iterOuter selfName outers)
    match module? with
    | none => .error .moduleSubmodule
    | some m =>
      match submodule? with
      | none => .error .moduleSubmodule
      | some s => do
        let m ← get_name m
        let s ← get_name s
        pure (m ++ "_" ++ s ++ "_" ++ name)
  else
    pure name

/-! ## Bitfield grouping and accessor synthesis (src/dump/bitfield.rs) -/

/-- `bitfield::FIELD`, the raw name of every backing field. -/
def bitfieldFIELD : String := "bitfield"

/-- One `Bitfield`: boolean properties grouped at one offset, in the order
they were added. -/
structure BitGroup where
  offset : Nat
  fields : List String
deriving DecidableEq, Repr

/-- `PostAddInstruction`. -/
inductive PostAddInstruction where
  | skip
  | emitField
deriving DecidableEq, Repr

/-- Models `Bitfields::add`.  The source keeps a `Vec` and mutates its last
element; here the groups are stored most-recent-first, so the head is the
group the source calls `last_mut()` on. -/
def bitfieldsAdd (revGroups : List BitGroup) (offset : Nat) (field : String) :
    List BitGroup × PostAddInstruction :=
  match revGroups with
  | last :: rest =>
    if last.offset = offset then
      (⟨last.offset, last.fields ++ [field]⟩ :: rest, .skip)
    else
      (⟨offset, [field]⟩ :: last :: rest, .emitField)
  | [] => ([⟨offset, [field]⟩], .emitField)

/-- One synthesized accessor pair for one packed bit. -/
structure Accessor where
  fieldLabel : String
  getterName : String
  setterName : String
  bit : Nat
deriving DecidableEq, Repr

/-- The accessors synthesized for one group against one backing field. -/
structure GroupAccessors where
  backing : String
  accessors : List Accessor
deriving DecidableEq, Repr

/-- The `get_count` closure of `Bitfield::emit`: same counting scheme as
`get_unique_name`, on a map shared by raw and normalized names. -/
def getCount (counts : List (String × Nat)) (s : String) :
    List (String × Nat) × Nat :=
  match lookupCount counts s with
  | none => ((s, 0) :: counts, 0)
  | some c => (bumpCount counts s, c + 1)

/-- The per-entry body of `Bitfield::emit`: suffix a repeated raw field name,
strip a `b` + uppercase hungarian prefix, snake-case, suffix a repeated
normalized name, and record the accessor pair at the entry's bit index. -/
def emitAccessor (counts : List (String × Nat)) (bit : Nat) (field : String) :
    List (String × Nat) × Accessor :=
  let (counts, count) := getCount counts field
  let field := if count > 0 then field ++ "_" ++ decRepr count else field
  let bytes := field.toList
  let hasHungarianPrefix :=
    field.length ≥ 2 &&
      (match bytes with
       | b0 :: b1 :: _ => b0 = 'b' && b1.isUpper
       | _ => false)
  let f := if hasHungarianPrefix then String.mk bytes.tail else field
  let normalized := toSnakeCase f
  let (counts, count2) := getCount counts normalized
  let normalized :=
    if count2 > 0 then normalized ++ "_" ++ decRepr count2 else normalized
  (counts, ⟨field, "is_" ++ normalized, "set_" ++ normalized, bit⟩)

/-- The enumerated loop of `Bitfield::emit`. -/
def emitAccessorsGo (counts : List (String × Nat)) (bit : Nat) :
    List String → List Accessor
  | [] => []
  | f :: fs =>
    let (counts, acc) := emitAccessor counts bit f
    acc :: emitAccessorsGo counts (bit + 1) fs

/-- Models `Bitfield::emit` for one group: a fresh count map per group, bits
assigned by enumeration order. -/
def bitfieldEmit (g : BitGroup) (backing : String) : GroupAccessors :=
  ⟨backing, emitAccessorsGo [] 0 g.fields⟩

/-- The `Identifier { name, id }` display: bare name for id 0, suffixed
otherwise. -/
def backingIdentifier (i : Nat) : String :=
  if i > 0 then bitfieldFIELD ++ "_" ++ decRepr i else bitfieldFIELD

/-- The enumerated loop of `Bitfields::emit`. -/
def bitfieldsEmitGo (i : Nat) : List BitGroup → List GroupAccessors
  | [] => []
  | g :: gs => bitfieldEmit g (backingIdentifier i) :: bitfieldsEmitGo (i + 1) gs

/-- Models `Bitfields::emit`: groups in insertion order, each against its
deterministically named backing field. -/
def bitfieldsEmit (groups : List BitGroup) : List GroupAccessors :=
  bitfieldsEmitGo 0 groups

/-! ## The dump driver and writers (src/dump/mod.rs)

The text sink is modelled structurally: each `emit_field` call becomes one
`Span` record carrying the rendered name and type, the commented offset and
length, and a tag for the call site that produced it (`add_padding`, the
base-class field, the boolean backing field, or an ordinary field).  The
`fmt` / `io` error variants of the source error enum are not modelled: the
modelled sink cannot fail.  The extra `panicEmptyVariantIndex` value
models the Rust panic of `write_enumeration` when it indexes byte 0 of an
empty stripped variant name; it is not a variant of the source enum but an
abort of the same dynamic extent.
-/

/-- The error enum of src/dump/mod.rs (without the unmodelled fmt/io
variants), plus the modelled panic. -/
inductive DumpErr where
  | badVariant
  | constOuter
  | helper (e : HelperErr)
  | propertyInfo (e : PIErr)
  | propertySizeMismatch (mismatch : Int)
  | stringConversion
  | panicEmptyVariantIndex
deriving DecidableEq, Repr

/-- Which call site emitted a span. -/
inductive SpanKind where
  | pad
  | base
  | backing
  | field
deriving DecidableEq, Repr

/-- One `emit_field` call: rendered field name and type, plus the offset and
length written in the `// {:#x}({:#x})` comment line. -/
structure Span where
  kind : SpanKind
  name : String
  typ : String
  offset : Nat
  len : Nat
deriving DecidableEq, Repr

/-- Models `add_padding`: `emit_field("pad_at_{:#x}", "[u8; {:#x}]", offset,
size)`. -/
def padSpan (offset size : Nat) : Span :=
  ⟨.pad, "pad_at_" ++ fmtHex offset, "[u8; " ++ fmtHex size ++ "]", offset, size⟩

/-- Models `scrub_reserved_name`. -/
def scrub_reserved_name (name : String) : String :=
  if name = "mod" then "r#mod" else name

/-- The field type rendered by `add_fields`: the typed comment, wrapped in an
array type when `array_dim > 1`. -/
def renderFieldTyp (info : PropertyInfo) (array_dim : Nat) : String :=
  let ft := intoTypedComment info
  if array_dim > 1 then "[" ++ ft ++ "; " ++ decRepr array_dim ++ "]" else ft

/-! ### Object nodes

Each global-object kind the driver dispatches on carries the data its
writer reads.  `outers` are the name slots of the outer chain (nearest
ancestor first); `fullName` models `Object::full_name()` (`none` when the
class or a name slot is null).
-/

/-- A `game::Const` object. -/
structure ConstNode where
  name : Option String
  outers : List (Option String)
  value : String
deriving Repr

/-- A `game::Enum` object; each variant slot resolves through the name table
to `Option String`. -/
structure EnumNode where
  name : Option String
  outers : List (Option String)
  variants : List (Option String)
deriving Repr

/-- A function parameter or local: a property child of a `game::Function`
together with its flag tests.  Modelled from the spec: `is_param`,
`is_out_param` and `is_return_param` read property flag bits declared
outside src/; they are modelled as the three boolean test results. -/
structure ParamNode where
  prop : PropNode
  is_param : Bool
  is_out_param : Bool
  is_return_param : Bool

/-- A `game::Function` object (a method of a class). -/
structure FunctionNode where
  name : Option String
  fullName : Option String
  isNative : Bool
  children : List ParamNode

/-- One child in a struct's `children` chain.  Modelled from the spec:
`iter_children` follows the children/sibling chain, declared outside src/;
it is modelled as this list.  Children that are nested type definitions
(`is(STRUCTURE) / is(CONSTANT) / is(ENUMERATION)`) carry no property data
the dumper keeps after filtering, so they are a bare tag. -/
inductive ChildNode where
  | property (p : PropNode)
  | typeDef
  | funcDef (f : FunctionNode)

/-- The `game::Struct` super-class reference of a struct object; `none`
models both a null `super_field` and the self-referential root-type case
(`ptr::eq(super_class, structure)`), which the source folds into the same
branch. -/
structure SuperRef where
  name : Option String
  property_size : Nat
deriving DecidableEq, Repr

/-- A `game::ScriptStruct` or `game::Class` object. -/
structure StructNode where
  name : Option String
  outers : List (Option String)
  fullName : Option String
  super_field : Option SuperRef
  property_size : Nat
  children : List ChildNode

/-- One object of the global object table, tagged with the runtime-class
test (`is(CONSTANT)`, `is(ENUMERATION)`, `is(STRUCTURE)`, `is(CLASS)`) that
the driver dispatch matches; `other` covers every object matching none. -/
inductive ObjectNode where
  | constant (c : ConstNode)
  | enumeration (e : EnumNode)
  | scriptStruct (s : StructNode)
  | classObject (s : StructNode)
  | other

/-! ### Output blocks -/

/-- The variant block emitted for one enumeration. -/
structure EnumOut where
  name : String
  variants : List String
deriving DecidableEq, Repr

/-- The struct block emitted for one struct or class: the header comment,
the resolved name, the emitted field spans in order, the bitfield groups,
their synthesized accessors, and the `Deref` target when one is emitted. -/
structure StructOut where
  header : String
  name : String
  spans : List Span
  groups : List BitGroup
  accessorGroups : List GroupAccessors
  derefTarget : Option String
deriving DecidableEq, Repr

/-- One wrapper function emitted for a class method. -/
structure MethodOut where
  name : String
  inputs : List (String × String)
  outputs : List (String × String)
  returnPrototype : Option String
  isNative : Bool
  fullName : String
deriving DecidableEq, Repr

/-- One block of the generated sdk.rs. -/
inductive OutBlock where
  | comment (text : String)
  | enumBlock (e : EnumOut)
  | structBlock (s : StructOut)
  | implBlock (target : String) (methods : List MethodOut)
deriving DecidableEq, Repr

/-! ### write_constant -/

/-- Models `write_constant`: strip a trailing NUL from the value, take the
second element of `iter_outer` (the immediate outer), and emit one comment
line. -/
def write_constant (c : ConstNode) : Except DumpErr (List OutBlock) := do
  let value :=
    if strEndsWith c.value (String.mk [Char.ofNat 0]) then
      String.mk (c.value.toList.dropLast)
    else c.value
  let outer ← match c.outers.head? with
    | some o => pure o
    | none => .error .constOuter
  let outer ← (get_name outer).mapError DumpErr.helper
  let name ← (get_name c.name).mapError DumpErr.helper
  pure [.comment ("// " ++ outer ++ "_" ++ name ++ " = " ++ value)]

/-! ### write_enumeration -/

/-- The accumulator pass of `variant.split('_')`. -/
def splitUnderscoreGo (cur : List Char) : List Char → List String
  | [] => [String.mk cur.reverse]
  | c :: cs =>
    if c = '_' then String.mk cur.reverse :: splitUnderscoreGo [] cs
    else splitUnderscoreGo (c :: cur) cs

/-- Models Rust `str::split('_')`: the pieces between underscores, keeping
empty pieces (the empty string yields one empty piece). -/
def splitUnderscore (s : String) : List String :=
  splitUnderscoreGo [] s.toList

/-- The common-prefix shrink step of `write_enumeration`: the first variant
seeds the prefix with all its `_`-components; each later variant truncates
the prefix to the components still matching. -/
def updateCommon (cp : Option (List String)) (variant : String) :
    Option (List String) :=
  match cp with
  | some cps =>
    let k := ((cps.zip (splitUnderscore variant)).takeWhile
      (fun z => z.fst = z.snd)).length
    some (cps.take k)
  | none => some (splitUnderscore variant)

/-- `num_underscores + sum of component lengths`: the byte length of the
common prefix including its trailing underscore. -/
def commonLen (cp : List String) : Nat :=
  cp.length + (cp.map String.length).sum

/-- Models `variant.get(i..)` for ASCII strings: the suffix from byte `i`,
or `None` when `i` is past the end. -/
def strGetFrom (s : String) (i : Nat) : Option String :=
  if i ≤ s.toList.length then some (String.mk (s.toList.drop i)) else none

/-- The per-variant strip of `write_enumeration`, before camel-casing: keep
the unstripped form when the prefix does not fit or the stripped form is an
invalid identifier; trim an enum-name + `MAX` sentinel.  Indexing byte 0 of
an empty stripped form reproduces the source panic. -/
def stripVariant (cpLen : Nat) (name : String) (variant : String) :
    Except DumpErr String :=
  match strGetFrom variant cpLen with
  | none => .ok variant
  | some stripped =>
    match stripped.toList with
    | [] => .error .panicEmptyVariantIndex
    | c :: _ =>
      let beginsWithNumber := c.isDigit
      let isSelf := stripped = "Self"
      if !beginsWithNumber && !isSelf then
        -- Special case: Trim "Enum name + Max" to "Max".
        if strStartsWith stripped name && strEndsWith stripped "MAX" then
          .ok (String.mk (stripped.toList.drop name.toList.length))
        else
          .ok stripped
      else
        .ok variant

/-- The emitted identifier for one (already deduplicated) variant. -/
def emitVariant (cpLen : Nat) (name : String) (variant : String) :
    Except DumpErr String :=
  (stripVariant cpLen name variant).map toCamelCase

/-- Resolve every variant slot, failing with `BadVariant` on a null slot. -/
def resolveVariants : List (Option String) → Except DumpErr (List String)
  | [] => .ok []
  | v :: vs =>
    match v with
    | none => .error .badVariant
    | some v => do
      let rest ← resolveVariants vs
      pure (v :: rest)

/-- Models `write_enumeration`: resolve and deduplicate the raw variants
while shrinking the common prefix, emit nothing for a zero-variant enum,
resolve the enum's (denylist-aware) name, then strip and camel-case each
variant. -/
def write_enumeration (e : EnumNode) : Except DumpErr (List OutBlock) := do
  let raws ← resolveVariants e.variants
  let commonAcc := raws.foldl updateCommon none
  let uniqued := uniqueNames raws
  match commonAcc with
  | none =>
    -- If we haven't initialized the common prefix, then there are no
    -- variants in the enum. We don't generate empty enums.
    pure []
  | some cp => do
    let cpLen := commonLen cp
    let name ← (resolve_duplicate e.name e.outers).mapError DumpErr.helper
    let variants ← uniqued.mapM (emitVariant cpLen name)
    pure [.enumBlock ⟨name, variants⟩]

/-! ### write_structure -/

/-- Models `property_compare`: offset first, then the bitmask when both
properties are booleans. -/
def property_compare (p q : PropNode) : Ordering :=
  (compare p.offset q.offset).then
    (match p.boolMask, q.boolMask with
     | some a, some b => compare a b
     | _, _ => Ordering.eq)

/-- The comparator handed to the stable sort: `sort_by(property_compare)`
keeps `p` before `q` unless the comparison says greater. -/
def propertyLe (p q : PropNode) : Bool := property_compare p q ≠ .gt

/-- One step of a stable sort: insert `x` before the first element it does
not compare greater than. -/
def insertBy {α : Type} (le : α → α → Bool) (x : α) : List α → List α
  | [] => [x]
  | y :: ys => if le x y then x :: y :: ys else y :: insertBy le x ys

/-- A stable sort, modelling Rust `sort_by` (any two stable sorts agree
elementwise for the same comparator, so insertion sort is an exact model of
the stable merge sort the source calls). -/
def sortBy {α : Type} (le : α → α → Bool) : List α → List α
  | [] => []
  | x :: xs => insertBy le x (sortBy le xs)

/-- Models `get_fields`: keep property children with positive element size
at or past the base offset (nested type definitions and functions are
dropped by the `!is(STRUCTURE) && !is(CONSTANT) & !is(ENUMERATION) &&
!is(FUNCTION)` filter), stably sorted by `property_compare`. -/
def get_fields (children : List ChildNode) (offset : Nat) : List PropNode :=
  let props := children.filterMap fun c =>
    match c with
    | .property p =>
      if p.element_size > 0 && decide (p.offset ≥ offset) then some p else none
    | .typeDef => none
    | .funcDef _ => none
  sortBy propertyLe props

/-- The state threaded through `add_fields`: the layout cursor, the spans
emitted so far, the bitfield groups (most recent first, see
`bitfieldsAdd`), and the field-name count map. -/
structure WalkState where
  offset : Nat
  spans : List Span
  revGroups : List BitGroup
  fieldNameCounts : List (String × Nat)
deriving Repr

/-- The tail of the `add_fields` loop body once a field is actually emitted:
deduplicate the (scrubbed) name, render the type, record the span, and
advance the cursor to the end of the property. -/
def emitFieldStep (st : WalkState) (p : PropNode) (info : PropertyInfo)
    (rawName : String) (kind : SpanKind) : WalkState :=
  let total := p.element_size * p.array_dim
  let (counts, uname) :=
    get_unique_name st.fieldNameCounts (scrub_reserved_name rawName)
  let fieldName := "pub " ++ uname
  let typ := renderFieldTyp info p.array_dim
  { st with
    spans := st.spans ++ [⟨kind, fieldName, typ, p.offset, total⟩]
    fieldNameCounts := counts
    offset := p.offset + total }

/-- The `if *offset < property.offset { add_padding(...) }` step of the
walk: emit a padding span for the gap up to the next property. -/
def padTo (st : WalkState) (target : Nat) : WalkState :=
  if st.offset < target then
    { st with spans := st.spans ++ [padSpan st.offset (target - st.offset)] }
  else st

/-- The loop of `add_fields`: pad up to the property, classify it, cross-check
the classified size against `element_size * array_dim`, then either route a
boolean into the open bitfield group (skipping the span when the group
already exists) or emit a field span. -/
def addFieldsGo (st : WalkState) : List PropNode → Except DumpErr WalkState
  | [] => .ok st
  | p :: ps => do
    let st := padTo st p.offset
    let info ← (PropertyInfo.try_from p).mapError DumpErr.propertyInfo
    let totalPropertySize := p.element_size * p.array_dim
    let sizeMismatch : Int :=
      (totalPropertySize : Int) - ((info.size * p.array_dim : Nat) : Int)
    if sizeMismatch ≠ 0 then
      .error (.propertySizeMismatch sizeMismatch)
    else do
      let name ← (get_name p.name).mapError DumpErr.helper
      match p.boolMask with
      | some _ =>
        let (groups, instr) := bitfieldsAdd st.revGroups p.offset name
        let st := { st with revGroups := groups }
        match instr with
        | .skip => addFieldsGo st ps
        | .emitField =>
          addFieldsGo (emitFieldStep st p info bitfieldFIELD .backing) ps
      | none =>
        addFieldsGo (emitFieldStep st p info name .field) ps

/-- Models `add_fields`, starting the cursor at `offset` with the spans
emitted so far (the base-class span when there is one). -/
def add_fields (offset : Nat) (spans : List Span) (properties : List PropNode) :
    Except DumpErr WalkState :=
  addFieldsGo ⟨offset, spans, [], []⟩ properties

/-- The base offset of a struct: 0 without a usable superclass, else the
superclass's declared size. -/
def baseOffset (sd : StructNode) : Nat :=
  match sd.super_field with
  | none => 0
  | some s => s.property_size

/-- Models `write_structure`: resolve the (denylist-aware) name, emit the
header comment and the optional base-class span, walk the sorted direct
properties, close with a trailing padding span, then synthesize the
bitfield accessors and the `Deref` target. -/
def write_structure (sd : StructNode) : Except DumpErr StructOut := do
  let name ← (resolve_duplicate sd.name sd.outers).mapError DumpErr.helper
  let structureSize := sd.property_size
  let fullName ← (get_name sd.fullName).mapError DumpErr.helper
  let (header, superName?) ← match sd.super_field with
    | none =>
      pure ("// " ++ fullName ++ ", " ++ fmtHex structureSize,
        (none : Option String))
    | some s => do
      let offset := s.property_size
      let relativeSize := structureSize - offset
      let superName ← (get_name s.name).mapError DumpErr.helper
      pure ("// " ++ fullName ++ ", " ++ fmtHex relativeSize ++ " (" ++
        fmtHex structureSize ++ " - " ++ fmtHex offset ++ ")",
        some superName)
  let offset := baseOffset sd
  let baseSpans := match superName? with
    | some superName => [⟨SpanKind.base, "base", superName, 0, offset⟩]
    | none => []
  let properties := get_fields sd.children offset
  let st ← add_fields offset baseSpans properties
  let spans :=
    if st.offset < structureSize then
      st.spans ++ [padSpan st.offset (structureSize - st.offset)]
    else st.spans
  let groups := st.revGroups.reverse
  let derefTarget := match superName? with
    | some superName => some superName
    | none => if name = "Object" then some "game::Object" else none
  pure ⟨header, name, spans, groups, bitfieldsEmit groups, derefTarget⟩

/-! ### Methods (write_class) -/

/-- `ParameterKind`. -/
inductive ParameterKind where
  | input
  | output
deriving DecidableEq, Repr

/-- One collected `Parameter` (the source keeps the property reference for
the final stable sort). -/
structure Parameter where
  prop : PropNode
  kind : ParameterKind
  name : String
  typ : String

/-- The parameter type computed in `Parameters::try_from`: the typed
comment, with the special case that a `u32` (a `BoolProperty` in a
structure definition) becomes `bool` in a method parameter list. -/
def paramTyp (p : PropNode) : Except PIErr String := do
  let info ← PropertyInfo.try_from p
  let typ := intoTypedComment info
  pure (if typ = "u32" then "bool" else typ)

/-- The collection loop of `Parameters::try_from`. -/
def parametersGo (counts : List (String × Nat)) :
    List ParamNode → Except DumpErr (List Parameter)
  | [] => .ok []
  | pn :: pns => do
    if pn.prop.element_size > 0 then
      match
        (if pn.is_out_param || pn.is_return_param then some ParameterKind.output
         else if pn.is_param then some ParameterKind.input
         else none) with
      | none => parametersGo counts pns
      | some kind => do
        let name ← (get_name pn.prop.name).mapError DumpErr.helper
        let name := scrub_reserved_name name
        let (counts, name) := get_unique_name counts name
        let typ ← (paramTyp pn.prop).mapError DumpErr.propertyInfo
        let rest ← parametersGo counts pns
        pure (⟨pn.prop, kind, name, typ⟩ :: rest)
    else
      parametersGo counts pns

/-- Models `Parameters::try_from`: collect the flagged parameters in
declaration order, then stably sort them by `property_compare`. -/
def parameters_try_from (method : FunctionNode) :
    Except DumpErr (List Parameter) := do
  let ps ← parametersGo [] method.children
  pure (sortBy (fun p q => propertyLe p.prop q.prop) ps)

/-- The return prototype of a wrapper function (`OutputPrototype`). -/
def outputPrototype (outs : List (String × String)) : Option String :=
  match outs with
  | [] => none
  | [single] => some ("Option<" ++ single.snd ++ ">")
  | _ =>
    some ("Option<(" ++ String.intercalate ", " (outs.map Prod.snd) ++ ")>")

/-- Models `add_method` for one method: a deduplicated method name, the
parameters split into inputs and outputs, the return prototype, and the
full name used to look the function up at call time. -/
def add_method (counts : List (String × Nat)) (m : FunctionNode) :
    Except DumpErr (List (String × Nat) × MethodOut) := do
  let rawName ← (get_name m.name).mapError DumpErr.helper
  let (counts, name) := get_unique_name counts rawName
  let params ← parameters_try_from m
  let inputs := (params.filter (fun p => p.kind = .input)).map
    (fun p => (p.name, p.typ))
  let outputs := (params.filter (fun p => p.kind = .output)).map
    (fun p => (p.name, p.typ))
  let fullName ← (get_name m.fullName).mapError DumpErr.helper
  pure (counts, ⟨name, inputs, outputs, outputPrototype outputs, m.isNative,
    fullName⟩)

/-- The method loop of `add_methods`. -/
def addMethodsGo (counts : List (String × Nat)) :
    List FunctionNode → Except DumpErr (List MethodOut)
  | [] => .ok []
  | m :: ms => do
    let (counts, out) ← add_method counts m
    let rest ← addMethodsGo counts ms
    pure (out :: rest)

/-- Models `get_methods`: the function children of a class. -/
def get_methods (children : List ChildNode) : List FunctionNode :=
  children.filterMap fun c =>
    match c with
    | .funcDef f => some f
    | _ => none

/-- Models `add_methods`: one impl block per class. -/
def add_methods (sd : StructNode) : Except DumpErr OutBlock := do
  let name ← (resolve_duplicate sd.name sd.outers).mapError DumpErr.helper
  let methods ← addMethodsGo [] (get_methods sd.children)
  pure (.implBlock name methods)

/-- Models `write_class`: the struct block followed by the method impls. -/
def write_class (sd : StructNode) : Except DumpErr (List OutBlock) := do
  let structOut ← write_structure sd
  let methods ← add_methods sd
  pure [.structBlock structOut, methods]

/-! ### The driver -/

/-- Models `write_object`: dispatch on the runtime-class tests, in the
source's `if` / `else if` order; objects matching no test emit nothing. -/
def write_object : ObjectNode → Except DumpErr (List OutBlock)
  | .constant c => write_constant c
  | .enumeration e => write_enumeration e
  | .scriptStruct s => (write_structure s).map (fun out => [.structBlock out])
  | .classObject s => write_class s
  | .other => .ok []

/-- Models the driver loop of `sdk()`: `for object in objects {
write_object(&mut scope, object)?; }` — the `?` propagates the first error
out of the loop. -/
def sdkObjects (objects : List ObjectNode) : Except DumpErr (List OutBlock) :=
  objects.foldlM (fun acc o => do pure (acc ++ (← write_object o))) []

/-! ## Specification-side predicates and helpers

These definitions state the claimed properties; they are compared against
the embedded program definitions above.
-/

instance {ε α : Type} [DecidableEq ε] [DecidableEq α] :
    DecidableEq (Except ε α) := fun a b =>
  match a, b with
  | .ok x, .ok y =>
    if h : x = y then .isTrue (h ▸ rfl)
    else .isFalse (fun he => h (Except.ok.inj he))
  | .error x, .error y =>
    if h : x = y then .isTrue (h ▸ rfl)
    else .isFalse (fun he => h (Except.error.inj he))
  | .ok _, .error _ => .isFalse (fun he => Except.noConfusion he)
  | .error _, .ok _ => .isFalse (fun he => Except.noConfusion he)

/-- `covers cur spans stop`: the spans tile the byte range `[cur, stop)`
exactly — each span starts where the previous one ended, has positive
length, and the last one ends at `stop`.  This packages contiguity,
non-overlap, strictly increasing offsets, and exact cover. -/
def covers (cur : Nat) (spans : List Span) (stop : Nat) : Bool :=
  match spans with
  | [] => cur == stop
  | s :: rest => s.offset == cur && decide (0 < s.len) && covers (cur + s.len) rest stop

/-- The total byte size of a property: `element_size * array_dim`. -/
def totalSize (p : PropNode) : Nat := p.element_size * p.array_dim

/-- A well-formed direct property of a struct of declared size `size`:
positive element size, at least one array element, lying inside the struct,
and boolean properties being plain 4-byte bitmask slots. -/
def wfProp (size : Nat) (p : PropNode) : Prop :=
  0 < p.element_size ∧ 1 ≤ p.array_dim ∧ p.offset + totalSize p ≤ size ∧
    (p.isBool = true → p.element_size = 4 ∧ p.array_dim = 1)

instance (size : Nat) (p : PropNode) : Decidable (wfProp size p) :=
  inferInstanceAs (Decidable (0 < p.element_size ∧ 1 ≤ p.array_dim ∧
    p.offset + totalSize p ≤ size ∧
    (p.isBool = true → p.element_size = 4 ∧ p.array_dim = 1)))

/-- Two consecutive properties of a well-formed struct either do not
overlap, or are two booleans sharing one bitfield offset. -/
def wfStep (p q : PropNode) : Prop :=
  p.offset + totalSize p ≤ q.offset ∨
    (p.isBool = true ∧ q.isBool = true ∧ q.offset = p.offset)

instance (p q : PropNode) : Decidable (wfStep p q) :=
  inferInstanceAs (Decidable (p.offset + totalSize p ≤ q.offset ∨
    (p.isBool = true ∧ q.isBool = true ∧ q.offset = p.offset)))

/-- The sorted direct-property list a struct's layout walk runs over. -/
def sortedFields (sd : StructNode) : List PropNode :=
  get_fields sd.children (baseOffset sd)

/-- The base-class size, when there is a superclass, is positive and fits
inside the declared size. -/
def wfSuper (sd : StructNode) : Prop :=
  match sd.super_field with
  | none => True
  | some s => 0 < s.property_size ∧ s.property_size ≤ sd.property_size

instance (sd : StructNode) : Decidable (wfSuper sd) :=
  match h : sd.super_field with
  | none => isTrue (by unfold wfSuper; rw [h]; trivial)
  | some s =>
    if hs : 0 < s.property_size ∧ s.property_size ≤ sd.property_size then
      isTrue (by unfold wfSuper; rw [h]; exact hs)
    else isFalse (by unfold wfSuper; rw [h]; exact hs)

/-- A well-formed struct: a positive base-class size fitting inside the
declared size when there is a superclass, every sorted direct property
well-formed, and consecutive sorted properties non-overlapping except for
shared-offset booleans. -/
def wfStruct (sd : StructNode) : Prop :=
  wfSuper sd ∧
  (∀ p ∈ sortedFields sd, wfProp sd.property_size p) ∧
  List.Chain' wfStep (sortedFields sd)

instance (sd : StructNode) : Decidable (wfStruct sd) :=
  inferInstanceAs (Decidable (wfSuper sd ∧
    (∀ p ∈ sortedFields sd, wfProp sd.property_size p) ∧
    List.Chain' wfStep (sortedFields sd)))

/-- The offset of the most recently opened bitfield group. -/
def headGroupOffset (st : WalkState) : Option Nat :=
  st.revGroups.head?.map BitGroup.offset

/-- The relation between the walk state and the next property: the cursor
has not passed it, unless it is a boolean continuing the open 4-byte
group. -/
def HeadOk (st : WalkState) : List PropNode → Prop
  | [] => True
  | q :: _ => st.offset ≤ q.offset ∨
      (q.isBool = true ∧ headGroupOffset st = some q.offset ∧
        q.offset + 4 = st.offset)

/-- The `Bitfields::add` fold on group signatures, most-recent-first: a
boolean at the open group's offset extends it, any other offset opens a new
group. -/
def addSigRev (revSigs : List (Nat × Nat)) : List Nat → List (Nat × Nat)
  | [] => revSigs
  | o :: os =>
    match revSigs with
    | g :: rest =>
      if g.fst = o then addSigRev ((g.fst, g.snd + 1) :: rest) os
      else addSigRev ((o, 1) :: g :: rest) os
    | [] => addSigRev [(o, 1)] os

/-- The backing spans `(offset, 4)` the walk appends for a sequence of
boolean offsets, given the offset of the currently open group: a new
backing field opens exactly when the offset leaves the open group. -/
def backingAdds (headOff : Option Nat) : List Nat → List (Nat × Nat)
  | [] => []
  | o :: os =>
    if headOff = some o then backingAdds headOff os
    else (o, 4) :: backingAdds (some o) os

/-- The offsets of the boolean properties of a walk, in walk order. -/
def boolOffsets (ps : List PropNode) : List Nat :=
  ps.filterMap fun p => if p.isBool then some p.offset else none

/-- Extend the current maximal run `(offset, count)` through a list of
offsets, closing it at the first differing offset. -/
def offsetRunsFrom (g : Nat × Nat) : List Nat → List (Nat × Nat)
  | [] => [g]
  | o :: os =>
    if o = g.fst then offsetRunsFrom (g.fst, g.snd + 1) os
    else g :: offsetRunsFrom (o, 1) os

/-- The maximal runs of equal consecutive offsets, each as
`(offset, run length)`. -/
def offsetRuns : List Nat → List (Nat × Nat)
  | [] => []
  | o :: os => offsetRunsFrom (o, 1) os

/-- The group signature: offset and number of packed fields. -/
def groupSig (g : BitGroup) : Nat × Nat := (g.offset, g.fields.length)

/-- No raw name of the scope is itself some other raw name followed by an
underscore and a positive decimal numeral (the shapes `get_unique_name`
manufactures). -/
def suffixFree (names : List String) : Prop :=
  ∀ a ∈ names, ∀ b ∈ names, ∀ k : Nat, 0 < k → a ≠ b ++ "_" ++ decRepr k

/-- The emitted identifier the amended claim predicts for position `i` of a
raw-name sequence: bare on first occurrence, suffixed by the number of
earlier occurrences otherwise — the number taken modulo 256, the width of
the source's `u8` counter, so every 256th repeat is emitted bare again. -/
def predictedName (names : List String) (i : Nat) (x : String) : String :=
  let k := (names.take i).count x % 256
  if k = 0 then x else x ++ "_" ++ decRepr k

/-- Decimal decoding, for proving `decRepr` injective. -/
def decVal (l : List Char) : Nat :=
  l.foldl (fun a c => 10 * a + (c.toNat - 48)) 0

/-! ## Concrete inputs for the scenarios and counterexamples -/

/-- Scenario A: struct, no superclass, a 4-byte int `Health` at 0 and a
4-byte float `Mana` at 4, declared size 12. -/
def scenarioA : StructNode :=
  ⟨some "ScenA", [some "Pkg"], some "ScriptStruct Pkg.ScenA", none, 12,
    [.property (.intProp ⟨some "Health", 1, 4, 0⟩),
     .property (.floatProp ⟨some "Mana", 1, 4, 4⟩)]⟩

/-- Scenario B: struct, no superclass, three booleans all at offset 0x10,
declared size 0x14. -/
def scenarioB : StructNode :=
  ⟨some "ScenB", [some "Pkg"], some "ScriptStruct Pkg.ScenB", none, 0x14,
    [.property (.boolProp ⟨some "bA", 1, 4, 0x10⟩ 1),
     .property (.boolProp ⟨some "bB", 1, 4, 0x10⟩ 2),
     .property (.boolProp ⟨some "bC", 1, 4, 0x10⟩ 4)]⟩

/-- The struct block Scenario B produces. -/
def scenarioBOut : StructOut :=
  ⟨"// ScriptStruct Pkg.ScenB, 0x14", "ScenB",
    [padSpan 0 0x10, ⟨.backing, "pub bitfield", "u32", 0x10, 4⟩],
    [⟨0x10, ["bA", "bB", "bC"]⟩],
    [⟨"bitfield",
      [⟨"bA", "is_a", "set_a", 0⟩, ⟨"bB", "is_b", "set_b", 1⟩,
       ⟨"bC", "is_c", "set_c", 2⟩]⟩],
    none⟩

/-- The struct block Scenario A produces. -/
def scenarioAOut : StructOut :=
  ⟨"// ScriptStruct Pkg.ScenA, 0xc", "ScenA",
    [⟨.field, "pub Health", "i32", 0, 4⟩, ⟨.field, "pub Mana", "f32", 4, 4⟩,
     padSpan 8 4],
    [], [], none⟩

/-- Scenario C: enum `WEAP` with variants `WEAP_Pistol`, `WEAP_Shotgun`,
`WEAP_MAX`. -/
def enumWeap : EnumNode :=
  ⟨some "WEAP", [some "Pkg"],
    [some "WEAP_Pistol", some "WEAP_Shotgun", some "WEAP_MAX"]⟩

/-- An enum whose first variant is exactly one byte longer than the computed
common component prefix, so its stripped form is the empty string. -/
def enumPanicInput : EnumNode :=
  ⟨some "E", [some "Pkg"], [some "WEAP_", some "WEAP_X"]⟩

/-- An enum whose single variant resolves to the empty string. -/
def enumEmptyVariantInput : EnumNode :=
  ⟨some "E", [some "Pkg"], [some ""]⟩

/-- An enumeration object with an unresolvable variant slot. -/
def badEnumObject : ObjectNode :=
  .enumeration ⟨some "Bad", [some "Pkg"], [none]⟩

/-- A constant object that reconstructs fine on its own. -/
def goodConstObject : ObjectNode :=
  .constant ⟨some "K", [some "Pkg"], "7"⟩

/-- A referenced struct with declared `property_size` 12. -/
def structRefCexRef : StructRef := ⟨some "Vector", 12⟩

/-- A struct-reference property whose own `element_size` (8) differs from
the referenced struct's declared `property_size` (12). -/
def structRefCexProp : PropNode :=
  .structProp ⟨some "P", 1, 8, 0⟩ (some structRefCexRef)

/-! ## Bit-level lemmas for the hook accessors -/

theorem and_two_pow_eq (b i : Nat) :
    b &&& 2 ^ i = if b.testBit i then 2 ^ i else 0 := by
  apply Nat.eq_of_testBit_eq
  intro j
  rw [Nat.testBit_and]
  by_cases hj : j = i
  · subst hj
    cases h : b.testBit j <;> simp [h, Nat.testBit_two_pow_self]
  · have hp : (2 ^ i).testBit j = false :=
      Nat.testBit_two_pow_of_ne (fun he => hj he.symm)
    cases hb : b.testBit i <;> simp [hp, hb, Nat.zero_testBit]

theorem is_bit_set_eq_testBit (b i : Nat) : is_bit_set b i = b.testBit i := by
  unfold is_bit_set
  simp only [Nat.shiftLeft_eq, one_mul]
  rw [and_two_pow_eq]
  cases h : b.testBit i
  · have h2 : (0 : Nat) ≠ 2 ^ i := (Nat.two_pow_pos i).ne
    simp [h2]
  · simp

theorem testBit_set_bit (b i j : Nat) (v : Bool) (hi : i < 32) (hj : j < 32) :
    (set_bit b i v).testBit j = if j = i then v else b.testBit j := by
  unfold set_bit
  simp only [Nat.shiftLeft_eq, one_mul]
  have hones : (4294967295 : Nat).testBit j = true := by
    simpa [hj] using Nat.testBit_two_pow_sub_one 32 j
  by_cases hji : j = i
  · subst hji
    cases v <;>
      simp [Nat.testBit_or, Nat.testBit_and, Nat.testBit_xor, hones,
        Nat.testBit_two_pow_self]
  · have hp : (2 ^ i).testBit j = false :=
      Nat.testBit_two_pow_of_ne (fun he => hji he.symm)
    cases v <;>
      simp [Nat.testBit_or, Nat.testBit_and, Nat.testBit_xor, hones, hp, hji]

theorem set_bit_idem (b i : Nat) (v : Bool) :
    set_bit (set_bit b i v) i v = set_bit b i v := by
  apply Nat.eq_of_testBit_eq
  intro j
  cases v <;>
    simp only [set_bit, Nat.testBit_or, Nat.testBit_and] <;>
    cases b.testBit j <;> cases ((2 ^ 32 - 1) ^^^ 1 <<< i).testBit j <;>
    cases (1 <<< i).testBit j <;> simp

theorem emitAccessor_bit (counts : List (String × Nat)) (bit : Nat)
    (f : String) : (emitAccessor counts bit f).2.bit = bit := by
  unfold emitAccessor
  cases getCount counts f
  dsimp only

theorem emitAccessorsGo_bits (fs : List String) :
    ∀ counts bit, (emitAccessorsGo counts bit fs).map Accessor.bit =
      List.range' bit fs.length := by
  induction fs with
  | nil => intro counts bit; simp [emitAccessorsGo, List.range']
  | cons f fs ih =>
    intro counts bit
    simp [emitAccessorsGo, List.range', ih, emitAccessor_bit]

/-- C9: for every 32-bit backing value `b`, bit index `i < 32` and boolean
`v`: after `set_bit(b, i, v)`, `is_bit_set(b, i)` returns `v` and every bit
`j ≠ i` of `b` is unchanged; calling set with true then false yields `b`
with bit `i` cleared and all other bits preserved; repeating a set is
idempotent; and the accessors synthesized for one bitfield group are
assigned the pairwise distinct bits `0, 1, ..., n-1` of the one backing
value, so accessors for distinct entries touch disjoint bits. -/
theorem c9_bit_accessors (b i : Nat) (v : Bool) (hi : i < 32) :
    is_bit_set (set_bit b i v) i = v ∧
    (∀ j, j < 32 → j ≠ i → (set_bit b i v).testBit j = b.testBit j) ∧
    (∀ j, j < 32 → (set_bit (set_bit b i true) i false).testBit j =
      (if j = i then false else b.testBit j)) ∧
    set_bit (set_bit b i v) i v = set_bit b i v ∧
    (∀ g : BitGroup, ∀ backing : String,
      (bitfieldEmit g backing).accessors.map Accessor.bit =
        List.range g.fields.length) := by
  refine ⟨?_, ?_, ?_, set_bit_idem b i v, ?_⟩
  · rw [is_bit_set_eq_testBit, testBit_set_bit b i i v hi hi]
    simp
  · intro j hj hji
    rw [testBit_set_bit b i j v hi hj]
    simp [hji]
  · intro j hj
    rw [testBit_set_bit _ i j false hi hj]
    by_cases hji : j = i
    · simp [hji]
    · rw [testBit_set_bit b i j true hi hj]
      simp [hji]
  · intro g backing
    simpa [bitfieldEmit, List.range_eq_range'] using
      emitAccessorsGo_bits g.fields [] 0

/-- Witness for C9 at `b = 5`, `i = 3`, `v = true`. -/
theorem c9_witness :
    is_bit_set (set_bit 5 3 true) 3 = true ∧
      set_bit (set_bit 5 3 true) 3 true = set_bit 5 3 true := by
  have h := c9_bit_accessors 5 3 true (by decide)
  exact ⟨h.1, h.2.2.2.1⟩

/-- C5, counterexample: classifying a struct-reference property whose own
`element_size` is 8 while the referenced struct's declared size is 12
returns size 8 — the property's element size, not the referenced struct's
declared size as the claim states. -/
theorem c5_counterexample :
    PropertyInfo.try_from structRefCexProp = .ok ⟨8, "Vector", ""⟩ ∧
      structRefCexRef.property_size = 12 ∧ (8 : Nat) ≠ 12 := by
  refine ⟨by rfl, rfl, by decide⟩

/-- C5 as amended: for every struct-reference property, classification
fails with the null-required-reference error exactly when the referenced
struct pointer is null, fails with a missing-name error when the referenced
struct's name slot is unset, and otherwise returns a size equal to the
property node's own `element_size` (which the layout walk's size
cross-check later validates) together with a type naming the referenced
struct. -/
theorem c5_struct_ref_classification (core : PropCore)
    (inner : Option StructRef) :
    PropertyInfo.try_from (.structProp core inner) =
      (match inner with
       | none => .error .nullPropertyStruct
       | some sref =>
         match sref.name with
         | none => .error .nullName
         | some n => .ok ⟨core.element_size, n, ""⟩) := by
  cases inner with
  | none => rfl
  | some sref => cases sref with
    | mk nm sz => cases nm <;> rfl

/-- C6: for the enum `WEAP` with variants `WEAP_Pistol`, `WEAP_Shotgun`,
`WEAP_MAX`, the common `_`-component prefix computes to `WEAP` (5 bytes
with its underscore), shrinking monotonically variant by variant, and
stripping yields the display names `Pistol`, `Shotgun` and `MAX`, the last
untouched by the sentinel trim since `MAX` does not start with `WEAP`. -/
theorem c6_weap_scenario :
    updateCommon none "WEAP_Pistol" = some ["WEAP", "Pistol"] ∧
    updateCommon (some ["WEAP", "Pistol"]) "WEAP_Shotgun" = some ["WEAP"] ∧
    updateCommon (some ["WEAP"]) "WEAP_MAX" = some ["WEAP"] ∧
    (["WEAP"] : List String).isPrefixOf ["WEAP", "Pistol"] = true ∧
    ["WEAP_Pistol", "WEAP_Shotgun", "WEAP_MAX"].foldl updateCommon none =
      some ["WEAP"] ∧
    commonLen ["WEAP"] = 5 ∧
    stripVariant 5 "WEAP" "WEAP_Pistol" = .ok "Pistol" ∧
    stripVariant 5 "WEAP" "WEAP_Shotgun" = .ok "Shotgun" ∧
    stripVariant 5 "WEAP" "WEAP_MAX" = .ok "MAX" ∧
    strStartsWith "MAX" "WEAP" = false ∧
    uniqueNames ["WEAP_Pistol", "WEAP_Shotgun", "WEAP_MAX"] =
      ["WEAP_Pistol", "WEAP_Shotgun", "WEAP_MAX"] := by
  refine ⟨by decide, by decide, by decide, by decide, by decide, by decide,
    by decide, by decide, by decide, by decide, by decide⟩

/-- C7: evaluating `write_enumeration` at the claim's own edge cases.  A
variant whose text is exactly one byte longer than the computed common
prefix strips to the empty string and the filter indexes its byte 0 —
the modelled panic; a variant resolving to the empty string is emitted as
an empty identifier.  Both contradict the claim that normalization never
yields an empty display name on these inputs. -/
theorem c7_empty_variant_edge_cases :
    write_enumeration enumPanicInput = .error .panicEmptyVariantIndex ∧
    write_enumeration enumEmptyVariantInput = .ok [.enumBlock ⟨"E", [""]⟩] := by
  exact ⟨by rfl, by rfl⟩

/-! ## Reduction lemmas for the Except monad -/

theorem exc_bind_ok {α β ε : Type} (a : α) (f : α → Except ε β) :
    (Except.ok a >>= f) = f a := rfl

theorem exc_bind_err {α β ε : Type} (e : ε) (f : α → Except ε β) :
    ((Except.error e : Except ε α) >>= f) = .error e := rfl

theorem exc_pure {α ε : Type} (a : α) : (pure a : Except ε α) = .ok a := rfl

theorem exc_map_ok {α β ε : Type} (f : α → β) (a : α) :
    (f <$> (Except.ok a : Except ε α)) = .ok (f a) := rfl

theorem exc_map_err {α β ε : Type} (f : α → β) (e : ε) :
    (f <$> (Except.error e : Except ε α)) = .error e := rfl

/-! ## resolve_duplicate (C8) -/

/-- The module/submodule loop computes the last and second-to-last elements
of the outer chain. -/
theorem moduleLoop_foldl (l : List (Option String))
    (a b : Option (Option String)) :
    l.foldl (fun ms outer => (some outer, ms.fst)) (a, b) =
      (match l.reverse with
       | [] => (a, b)
       | [x] => (some x, a)
       | x :: y :: _ => (some x, some y)) := by
  induction l generalizing a b with
  | nil => rfl
  | cons c t ih =>
    rw [List.foldl_cons, ih, List.reverse_cons]
    cases ht : t.reverse with
    | nil => rfl
    | cons x ys => cases ys <;> rfl

/-- C8, counterexample: a denylisted enum three levels below the root
resolves with the two outermost ancestors, not its grandparent and parent:
with outer chain parent `P`, grandparent `G`, great-grandparent `Pkg`, the
emitted name is `Pkg_G_EFlightMode`, not `G_P_EFlightMode`. -/
theorem c8_counterexample :
    resolve_duplicate (some "EFlightMode") [some "P", some "G", some "Pkg"] =
      .ok "Pkg_G_EFlightMode" ∧
    "Pkg_G_EFlightMode" ≠ "G_P_EFlightMode" := by
  exact ⟨by rfl, by decide⟩

/-- C8 as amended: a node whose bare name is off the five-entry denylist
resolves to the bare name; a denylisted node resolves to
`{outermost}_{second-outermost}_{name}` computed from the root end of the
outer chain — which equals `{grandparent}_{parent}_{name}` exactly when the
node has exactly two ancestors; a denylisted node directly under the root
yields `{root}_{name}_{name}`, and one with no outer fails with the
module/submodule error.  Two unrelated denylisted enums with different
outer chains still get distinct emitted names. -/
theorem c8_resolve_duplicate :
    (∀ name outers, name ∉ DUPLICATES →
      resolve_duplicate (some name) outers = .ok name) ∧
    (∀ name rest penult root, name ∈ DUPLICATES →
      resolve_duplicate (some name) (rest ++ [some penult, some root]) =
        .ok (root ++ "_" ++ penult ++ "_" ++ name)) ∧
    (∀ name root, name ∈ DUPLICATES →
      resolve_duplicate (some name) [some root] =
        .ok (root ++ "_" ++ name ++ "_" ++ name)) ∧
    (∀ name, name ∈ DUPLICATES →
      resolve_duplicate (some name) [] = .error .moduleSubmodule) ∧
    resolve_duplicate (some "EFlightMode") [some "OuterA", some "PkgA"] ≠
      resolve_duplicate (some "EFlightMode") [some "OuterB", some "PkgB"] := by
  refine ⟨?_, ?_, ?_, ?_, by decide⟩
  · intro name outers hname
    simp [resolve_duplicate, get_name, hname, exc_bind_ok, exc_pure]
  · intro name rest penult root hname
    have hrev : (iterOuter (some name) (rest ++ [some penult, some root])).reverse
        = some root :: some penult :: (rest.reverse ++ [some name]) := by
      simp [iterOuter]
    simp [resolve_duplicate, get_name, hname, moduleLoop, moduleLoop_foldl,
      hrev, exc_bind_ok, exc_pure, exc_map_ok]
  · intro name root hname
    simp [resolve_duplicate, get_name, hname, moduleLoop, moduleLoop_foldl,
      iterOuter, exc_bind_ok, exc_pure, exc_map_ok]
  · intro name hname
    simp [resolve_duplicate, get_name, hname, moduleLoop, moduleLoop_foldl,
      iterOuter, exc_bind_ok, exc_pure]

/-- Witness for C8: the off-denylist case and the denylist case at depth
three, hypotheses discharged at concrete names. -/
theorem c8_witness :
    resolve_duplicate (some "Health") [some "P"] = .ok "Health" ∧
    resolve_duplicate (some "CheckpointRecord")
        ([] ++ [some "Cls", some "Pkg"]) =
      .ok ("Pkg" ++ "_" ++ "Cls" ++ "_" ++ "CheckpointRecord") := by
  exact ⟨c8_resolve_duplicate.1 "Health" [some "P"] (by decide),
    c8_resolve_duplicate.2.1 "CheckpointRecord" [] "Cls" "Pkg" (by decide)⟩

/-! ## The driver (C1) -/

/-- C1 as amended: an entity-scoped reconstruction error is not caught by
the driver loop; `write_object`'s error propagates through the `?` in
`sdk()`'s loop, so the pass stops at the first failing object and no later
object in table order is processed — the run returns that error. -/
theorem c1_driver_aborts (pre : List ObjectNode) (obj : ObjectNode)
    (post : List ObjectNode) (err : DumpErr)
    (hpre : ∀ o ∈ pre, ∃ out, write_object o = .ok out)
    (hobj : write_object obj = .error err) :
    sdkObjects (pre ++ obj :: post) = .error err := by
  unfold sdkObjects
  suffices h : ∀ acc : List OutBlock,
      (pre ++ obj :: post).foldlM
        (fun acc o => do pure (acc ++ (← write_object o))) acc = .error err by
    exact h []
  induction pre with
  | nil =>
    intro acc
    simp only [List.nil_append, List.foldlM_cons, hobj, exc_bind_err]
  | cons o pre ih =>
    intro acc
    obtain ⟨out, hout⟩ := hpre o (by simp)
    have hpre' : ∀ o ∈ pre, ∃ out, write_object o = .ok out := by
      intro o' ho'
      exact hpre o' (by simp [ho'])
    simp only [List.cons_append, List.foldlM_cons, hout, exc_bind_ok]
    exact ih hpre' (acc ++ out)

/-- C1, counterexample: with an enum carrying an unresolvable variant
followed by a perfectly reconstructible constant, the pass returns the
enum's error and the constant's output is never produced — the driver does
not continue with the next object. -/
theorem c1_counterexample :
    sdkObjects [badEnumObject, goodConstObject] = .error .badVariant ∧
    write_object goodConstObject = .ok [.comment "// Pkg_K = 7"] := by
  exact ⟨by rfl, by rfl⟩

/-- Witness for C1: the abort theorem applied at a concrete table. -/
theorem c1_witness :
    sdkObjects ([goodConstObject] ++ badEnumObject :: []) =
      .error .badVariant := by
  apply c1_driver_aborts [goodConstObject] badEnumObject [] .badVariant
  · intro o ho
    have : o = goodConstObject := by simpa using ho
    exact ⟨[.comment "// Pkg_K = 7"], by rw [this]; rfl⟩
  · rfl

/-- C10: every wrapper-function parameter whose classified field type is
exactly the boolean backing type `u32` is emitted with type `bool` instead
(and every other classified type passes through unchanged), while a
boolean property inside a struct definition keeps the 4-byte `u32`
backing representation rendered by `add_fields`. -/
theorem c10_bool_param_type :
    (∀ p : PropNode, ∀ info : PropertyInfo,
      PropertyInfo.try_from p = .ok info → intoTypedComment info = "u32" →
        paramTyp p = .ok "bool") ∧
    (∀ p : PropNode, ∀ info : PropertyInfo,
      PropertyInfo.try_from p = .ok info → intoTypedComment info ≠ "u32" →
        paramTyp p = .ok (intoTypedComment info)) ∧
    (∀ core : PropCore, ∀ bm : Nat,
      PropertyInfo.try_from (.boolProp core bm) = .ok ⟨SIZE_OF_U32, "u32", ""⟩ ∧
      paramTyp (.boolProp core bm) = .ok "bool" ∧
      (core.array_dim = 1 →
        renderFieldTyp ⟨SIZE_OF_U32, "u32", ""⟩ core.array_dim = "u32")) := by
  refine ⟨?_, ?_, ?_⟩
  · intro p info h hu
    simp [paramTyp, h, exc_bind_ok, hu, exc_pure]
  · intro p info h hu
    simp [paramTyp, h, exc_bind_ok, hu, exc_pure]
  · intro core bm
    refine ⟨rfl, by rfl, ?_⟩
    intro h1
    simp [renderFieldTyp, h1, intoTypedComment]

/-- Witness for C10 at a concrete boolean property. -/
theorem c10_witness :
    paramTyp (.boolProp ⟨some "bFlag", 1, 4, 0⟩ 7) = .ok "bool" ∧
    renderFieldTyp ⟨SIZE_OF_U32, "u32", ""⟩
      (PropCore.mk (some "bFlag") 1 4 0).array_dim = "u32" := by
  exact ⟨c10_bool_param_type.1 (.boolProp ⟨some "bFlag", 1, 4, 0⟩ 7)
      ⟨SIZE_OF_U32, "u32", ""⟩ (by rfl) (by rfl),
    (c10_bool_param_type.2.2 ⟨some "bFlag", 1, 4, 0⟩ 7).2.2 rfl⟩

/-! ## Decimal rendering lemmas (for C4) -/

theorem decDigit_isDigit (n : Nat) : (decDigit n).isDigit = true := by
  unfold decDigit
  split <;> rfl

theorem decDigit_toNat (n : Nat) : (decDigit n).toNat - 48 = n % 10 := by
  have hlt : n % 10 < 10 := Nat.mod_lt n (by decide)
  unfold decDigit
  set k := n % 10 with hk
  interval_cases k <;> rfl

theorem decCharsAux_digits (fuel : Nat) :
    ∀ n c, c ∈ decCharsAux fuel n → c.isDigit = true := by
  induction fuel with
  | zero => intro n c hc; simp [decCharsAux] at hc
  | succ fuel ih =>
    intro n c hc
    rw [decCharsAux] at hc
    split at hc
    · simp at hc
      rw [hc]; exact decDigit_isDigit n
    · rcases List.mem_append.1 hc with h | h
      · exact ih _ _ h
      · simp at h
        rw [h]; exact decDigit_isDigit _

theorem decChars_digits (n : Nat) : ∀ c ∈ decChars n, c.isDigit = true :=
  fun c hc => decCharsAux_digits (n + 1) n c hc

theorem underscore_not_mem_decChars (n : Nat) : '_' ∉ decChars n := by
  intro h
  have := decChars_digits n '_' h
  simp [Char.isDigit] at this

theorem decCharsAux_ne_nil (fuel n : Nat) (h : 0 < fuel) :
    decCharsAux fuel n ≠ [] := by
  cases fuel with
  | zero => omega
  | succ fuel =>
    rw [decCharsAux]
    split <;> simp

theorem decChars_ne_nil (n : Nat) : decChars n ≠ [] :=
  decCharsAux_ne_nil (n + 1) n (Nat.succ_pos n)

theorem decVal_append_digit (xs : List Char) (c : Char) :
    decVal (xs ++ [c]) = 10 * decVal xs + (c.toNat - 48) := by
  unfold decVal
  rw [List.foldl_append]
  rfl

theorem decVal_decCharsAux (fuel : Nat) :
    ∀ n, n < 10 ^ fuel → decVal (decCharsAux fuel n) = n := by
  induction fuel with
  | zero =>
    intro n hn
    have hz : n = 0 := by simpa using hn
    subst hz; rfl
  | succ fuel ih =>
    intro n hn
    rw [decCharsAux]
    split <;> rename_i h
    · show decVal ([] ++ [decDigit n]) = n
      rw [decVal_append_digit]
      unfold decVal
      simp [decDigit_toNat]
      omega
    · rw [decVal_append_digit, decDigit_toNat]
      have hdiv : n / 10 < 10 ^ fuel := by
        rw [Nat.div_lt_iff_lt_mul (by omega)]
        calc n < 10 ^ (fuel + 1) := hn
        _ = 10 ^ fuel * 10 := by rw [Nat.pow_succ]
      rw [ih (n / 10) hdiv]
      omega

theorem decVal_decChars (n : Nat) : decVal (decChars n) = n := by
  apply decVal_decCharsAux
  calc n < 10 ^ n := Nat.lt_pow_self (by decide) n
  _ ≤ 10 ^ (n + 1) := Nat.pow_le_pow_right (by decide) (Nat.le_succ n)

theorem decChars_inj {m n : Nat} (h : decChars m = decChars n) : m = n := by
  have := decVal_decChars m
  rw [h, decVal_decChars] at this
  omega

/-- Splitting at the last separator is unambiguous. -/
theorem sep_rev_inj : ∀ (rj rk ra rb : List Char), '_' ∉ rj → '_' ∉ rk →
    rj ++ '_' :: ra = rk ++ '_' :: rb → rj = rk ∧ ra = rb := by
  intro rj
  induction rj with
  | nil =>
    intro rk ra rb _ hk h
    cases rk with
    | nil => simpa using h
    | cons d rk' =>
      simp at h
      exact absurd (by rw [h.1]; exact List.mem_cons_self d rk') hk
  | cons c rj' ih =>
    intro rk ra rb hj hk h
    cases rk with
    | nil =>
      simp at h
      exact absurd (by rw [← h.1]; exact List.mem_cons_self c rj') hj
    | cons d rk' =>
      simp at h
      obtain ⟨hcd, htail⟩ := h
      have hj' : '_' ∉ rj' := fun hm => hj (List.mem_cons_of_mem c hm)
      have hk' : '_' ∉ rk' := fun hm => hk (List.mem_cons_of_mem d hm)
      obtain ⟨h1, h2⟩ := ih rk' ra rb hj' hk' htail
      exact ⟨by rw [hcd, h1], h2⟩

theorem string_data_inj {s t : String} (h : s.data = t.data) : s = t := by
  cases s; cases t
  simp only at h
  rw [h]

/-- The suffixed forms manufactured by `get_unique_name` determine the base
name and the count. -/
theorem suffix_form_inj (x y : String) (j k : Nat)
    (h : x ++ "_" ++ decRepr j = y ++ "_" ++ decRepr k) : x = y ∧ j = k := by
  have hdata : x.data ++ '_' :: decChars j = y.data ++ '_' :: decChars k := by
    have := congrArg String.data h
    simpa [String.data_append, decRepr] using this
  have hrev : (decChars j).reverse ++ '_' :: x.data.reverse =
      (decChars k).reverse ++ '_' :: y.data.reverse := by
    have := congrArg List.reverse hdata
    simpa [List.reverse_append] using this
  have hj : '_' ∉ (decChars j).reverse := by
    simpa using underscore_not_mem_decChars j
  have hk : '_' ∉ (decChars k).reverse := by
    simpa using underscore_not_mem_decChars k
  obtain ⟨h1, h2⟩ := sep_rev_inj _ _ _ _ hj hk hrev
  constructor
  · exact string_data_inj (by simpa using congrArg List.reverse h2)
  · exact decChars_inj (by simpa using congrArg List.reverse h1)

/-- A bare name never equals a suffixed form built from a clean name. -/
theorem bare_ne_suffix (x y : String) (k : Nat) (hx : '_' ∉ x.data) :
    x ≠ y ++ "_" ++ decRepr k := by
  intro h
  apply hx
  rw [congrArg String.data h]
  simp [String.data_append]

/-! ## get_unique_name lemmas (C4) -/

theorem lookupCount_bump_self (counts : List (String × Nat)) (n : String) :
    lookupCount (bumpCount counts n) n =
      (lookupCount counts n).map (fun v => (v + 1) % 256) := by
  induction counts with
  | nil => rfl
  | cons kv rest ih =>
    obtain ⟨k, v⟩ := kv
    by_cases hk : k = n
    · simp [lookupCount, bumpCount, hk]
    · simp [lookupCount, bumpCount, hk, ih]

theorem lookupCount_bump_other (counts : List (String × Nat)) (n x : String)
    (hx : x ≠ n) :
    lookupCount (bumpCount counts n) x = lookupCount counts x := by
  induction counts with
  | nil => rfl
  | cons kv rest ih =>
    obtain ⟨k, v⟩ := kv
    by_cases hk : k = n
    · subst hk
      have hkx : ¬ k = x := fun h => hx h.symm
      simp [lookupCount, bumpCount, hkx]
    · simp only [bumpCount, if_neg hk, lookupCount]
      split
      · rfl
      · exact ih

/-- The count map tracks the multiset of names already processed, with the
stored `u8` value wrapped modulo 256. -/
def countsRep (counts : List (String × Nat)) (prev : List String) : Prop :=
  ∀ x, lookupCount counts x =
    if prev.count x = 0 then none else some ((prev.count x - 1) % 256)

theorem countsRep_nil : countsRep [] [] := by
  intro x; rfl

theorem count_append_singleton_self (prev : List String) (n : String) :
    (prev ++ [n]).count n = prev.count n + 1 := by
  rw [List.count_append]
  simp

theorem count_append_singleton_other (prev : List String) (n x : String)
    (hxn : x ≠ n) : (prev ++ [n]).count x = prev.count x := by
  rw [List.count_append]
  have : [n].count x = 0 := by
    simp [List.count_singleton]
    exact fun h => hxn h.symm
  omega

theorem countsRep_step (counts : List (String × Nat)) (prev : List String)
    (n : String) (h : countsRep counts prev) :
    countsRep (get_unique_name counts n).1 (prev ++ [n]) := by
  intro x
  have hn := h n
  by_cases hc : prev.count n = 0
  · have hnone : lookupCount counts n = none := by rw [hn, if_pos hc]
    simp only [get_unique_name, hnone]
    by_cases hxn : x = n
    · subst hxn
      have hcnt := count_append_singleton_self prev x
      rw [hcnt, hc]
      simp [lookupCount]
    · have hcnt := count_append_singleton_other prev n x hxn
      rw [hcnt]
      have hnx : ¬ n = x := fun hh => hxn hh.symm
      simp only [lookupCount, if_neg hnx]
      exact h x
  · have hsome : lookupCount counts n = some ((prev.count n - 1) % 256) := by
      rw [hn, if_neg hc]
    simp only [get_unique_name, hsome]
    by_cases hxn : x = n
    · subst hxn
      have hcnt := count_append_singleton_self prev x
      rw [hcnt]
      rw [lookupCount_bump_self, hsome]
      have hpos : prev.count x ≠ 0 := hc
      simp only [Option.map_some']
      rw [if_neg (by omega)]
      congr 1
      rw [Nat.mod_add_mod]
      congr 1
      omega
    · have hcnt := count_append_singleton_other prev n x hxn
      rw [hcnt]
      rw [lookupCount_bump_other _ _ _ hxn]
      exact h x

theorem uniqueNamesGo_spec (ns : List String) :
    ∀ (counts : List (String × Nat)) (prev : List String),
      countsRep counts prev →
      uniqueNamesGo counts ns = ns.mapIdx (fun i x =>
        let k := (prev ++ ns.take i).count x % 256
        if k = 0 then x else x ++ "_" ++ decRepr k) := by
  induction ns with
  | nil => intro counts prev _; rfl
  | cons n ns ih =>
    intro counts prev h
    rw [List.mapIdx_cons]
    have hn := h n
    have hstep := countsRep_step counts prev n h
    have htail := ih (get_unique_name counts n).1 (prev ++ [n]) hstep
    have htails : uniqueNamesGo (get_unique_name counts n).1 ns =
        List.mapIdx (fun i x =>
          let k := (prev ++ (n :: ns).take (i + 1)).count x % 256
          if k = 0 then x else x ++ "_" ++ decRepr k) ns := by
      rw [htail]
      congr 1
      funext i x
      simp [List.take_succ_cons, List.append_assoc]
    have hhead : (get_unique_name counts n).2 =
        (let k := (prev ++ (n :: ns).take 0).count n % 256
         if k = 0 then n else n ++ "_" ++ decRepr k) := by
      by_cases hc : prev.count n = 0
      · have hnone : lookupCount counts n = none := by rw [hn, if_pos hc]
        simp [get_unique_name, hnone, hc]
      · have hsome : lookupCount counts n = some ((prev.count n - 1) % 256) := by
          rw [hn, if_neg hc]
        simp only [get_unique_name, hsome, List.take_zero, List.append_nil]
        have h1 : ((prev.count n - 1) % 256 + 1) % 256 = prev.count n % 256 := by
          rw [Nat.mod_add_mod]
          congr 1
          omega
        simp only [h1]
    calc uniqueNamesGo counts (n :: ns)
        = (get_unique_name counts n).2 ::
            uniqueNamesGo (get_unique_name counts n).1 ns := by
          cases hgu : get_unique_name counts n with
          | mk a b =>
            conv_lhs => rw [uniqueNamesGo]
            rw [hgu]
    _ = _ := by rw [hhead, htails]

theorem count_take_strict (names : List String) (i j : Nat) (hij : i < j)
    (hj : j ≤ names.length) (hi : i < names.length) :
    (names.take i).count names[i] < (names.take j).count names[i] := by
  have h1 : names.take (i + 1) = names.take i ++ [names[i]] := by
    rw [List.take_succ]
    simp [List.getElem?_eq_getElem hi]
  have h2 : names.take j =
      names.take (i + 1) ++ (names.drop (i + 1)).take (j - (i + 1)) := by
    have hsum : i + 1 + (j - (i + 1)) = j := by omega
    conv_lhs => rw [← hsum]
    rw [List.take_add]
  rw [h2, h1, List.count_append, List.count_append]
  have hone : List.count names[i] [names[i]] = 1 := by simp
  omega

/-- The fold characterization of `uniqueNames`: position `i` is emitted as
its raw name decorated by the wrapped count of earlier occurrences. -/
theorem uniqueNames_eq_predicted (names : List String) :
    uniqueNames names = names.mapIdx (predictedName names) := by
  unfold uniqueNames
  rw [uniqueNamesGo_spec names [] [] countsRep_nil]
  simp only [List.nil_append]
  rfl

theorem count_take_lt_256 (names : List String) (t : Nat)
    (ht : t < names.length) (hb : names.count names[t] ≤ 256) :
    (names.take t).count names[t] < 256 := by
  have h1 : names.take (t + 1) = names.take t ++ [names[t]] := by
    rw [List.take_succ]
    simp [List.getElem?_eq_getElem ht]
  have h2 : (names.take (t + 1)).count names[t] ≤ names.count names[t] :=
    List.Sublist.count_le (List.take_sublist (t + 1) names) _
  rw [h1, List.count_append] at h2
  have hone : List.count names[t] [names[t]] = 1 := by simp
  omega

/-- C4 as amended: within one scope, the first occurrence of a raw name is
emitted bare and the n-th repeat receives numeric suffix n (starting at 1)
in encounter order, the suffix taken modulo 256 because the source counts
repeats in a `u8` that wraps — so every 256th repeat of one name is
emitted bare again; the emitted identifiers are pairwise distinct provided
no raw name of the scope is itself another raw name followed by an
underscore and a positive decimal numeral (raw names `a`, `a`, `a_1`
collide as `a`, `a_1`, `a_1`) and no raw name occurs more than 256 times
(the 257th occurrence wraps to a bare duplicate of the first). -/
theorem c4_unique_suffixes :
    (∀ names : List String,
      uniqueNames names = names.mapIdx (predictedName names)) ∧
    (∀ names : List String, suffixFree names →
      (∀ x ∈ names, names.count x ≤ 256) →
      (uniqueNames names).Pairwise (· ≠ ·)) := by
  refine ⟨uniqueNames_eq_predicted, ?_⟩
  intro names hsf hbound
  rw [uniqueNames_eq_predicted]
  rw [List.pairwise_iff_getElem]
  intro i j hi hj hij
  have hi' : i < names.length := by simpa using hi
  have hj' : j < names.length := by simpa using hj
  simp only [List.getElem_mapIdx]
  have hmemi : names[i] ∈ names := List.getElem_mem _
  have hmemj : names[j] ∈ names := List.getElem_mem _
  have hmi : (names.take i).count names[i] % 256 =
      (names.take i).count names[i] :=
    Nat.mod_eq_of_lt (count_take_lt_256 names i hi' (hbound _ hmemi))
  have hmj : (names.take j).count names[j] % 256 =
      (names.take j).count names[j] :=
    Nat.mod_eq_of_lt (count_take_lt_256 names j hj' (hbound _ hmemj))
  unfold predictedName
  simp only [hmi, hmj]
  by_cases hkj : (names.take j).count names[j] = 0
  · have hxy : names[i] ≠ names[j] := by
      intro he
      have := count_take_strict names i j hij (by omega) hi'
      rw [he] at this
      omega
    by_cases hki : (names.take i).count names[i] = 0
    · simpa [hki, hkj] using hxy
    · simp only [if_neg hki, if_pos hkj]
      intro he
      exact hsf names[j] hmemj names[i] hmemi
        ((names.take i).count names[i]) (by omega) he.symm
  · by_cases hki : (names.take i).count names[i] = 0
    · simp only [if_pos hki, if_neg hkj]
      intro he
      exact hsf names[i] hmemi names[j] hmemj
        ((names.take j).count names[j]) (by omega) he
    · simp only [if_neg hki, if_neg hkj]
      intro he
      obtain ⟨hxy, hk⟩ := suffix_form_inj _ _ _ _ he
      have := count_take_strict names i j hij (by omega) hi'
      rw [hxy] at this hk
      omega

/-- C4, counterexample: with raw names `a`, `a`, `a_1` the emitted
identifiers are `a`, `a_1`, `a_1` — not pairwise distinct; and a scope with
257 repeats of the raw name `x` wraps the `u8` counter, so positions 0 and
256 are both emitted as the bare `x` — not pairwise distinct either, and
the 257th repeat does not receive suffix 256. Both refute the
unconditional claim. -/
theorem c4_counterexample :
    uniqueNames ["a", "a", "a_1"] = ["a", "a_1", "a_1"] ∧
    ¬ (uniqueNames ["a", "a", "a_1"]).Pairwise (· ≠ ·) ∧
    (uniqueNames (List.replicate 257 "x"))[0]? = some "x" ∧
    (uniqueNames (List.replicate 257 "x"))[256]? = some "x" ∧
    ¬ (uniqueNames (List.replicate 257 "x")).Pairwise (· ≠ ·) := by
  have hchar := uniqueNames_eq_predicted (List.replicate 257 "x")
  have hlen : (uniqueNames (List.replicate 257 "x")).length = 257 := by
    rw [hchar]
    simp only [List.length_mapIdx, List.length_replicate]
  have e0 : (uniqueNames (List.replicate 257 "x"))[0]? = some "x" := by
    rw [hchar]
    rw [List.getElem?_eq_getElem (by
      simp only [List.length_mapIdx, List.length_replicate]
      omega)]
    refine congrArg some ?_
    rw [List.getElem_mapIdx]
    simp only [predictedName, List.getElem_replicate, List.take_zero,
      List.count_nil, Nat.zero_mod]
    rfl
  have e256 : (uniqueNames (List.replicate 257 "x"))[256]? = some "x" := by
    rw [hchar]
    rw [List.getElem?_eq_getElem (by
      simp only [List.length_mapIdx, List.length_replicate]
      omega)]
    refine congrArg some ?_
    rw [List.getElem_mapIdx]
    simp only [predictedName, List.getElem_replicate, List.take_replicate]
    rw [min_eq_left (by omega : (256 : Nat) ≤ 257)]
    simp only [List.count_replicate_self]
    rw [Nat.mod_self]
    rfl
  refine ⟨by rfl, by decide, e0, e256, ?_⟩
  intro hp
  rw [List.pairwise_iff_getElem] at hp
  have hne := hp 0 256 (by rw [hlen]; omega) (by rw [hlen]; omega) (by omega)
  have g0 := Option.some.inj
    ((List.getElem?_eq_getElem
      (show 0 < (uniqueNames (List.replicate 257 "x")).length by
        rw [hlen]; omega)).symm.trans e0)
  have g256 := Option.some.inj
    ((List.getElem?_eq_getElem
      (show 256 < (uniqueNames (List.replicate 257 "x")).length by
        rw [hlen]; omega)).symm.trans e256)
  exact hne (g0.trans g256.symm)

/-- Witness for C4 at the raw names `Health`, `Health`. -/
theorem c4_witness :
    uniqueNames ["Health", "Health"] =
      ["Health", "Health"].mapIdx (predictedName ["Health", "Health"]) ∧
    (uniqueNames ["Health", "Health"]).Pairwise (· ≠ ·) := by
  refine ⟨c4_unique_suffixes.1 ["Health", "Health"],
    c4_unique_suffixes.2 ["Health", "Health"] ?_ ?_⟩
  · intro a ha b hb k hk
    have ha' : a = "Health" := by
      rcases List.mem_cons.mp ha with h | h
      · exact h
      · simpa using h
    subst ha'
    exact bare_ne_suffix "Health" b k (by decide)
  · intro x hx
    have hx' : x = "Health" := by
      rcases List.mem_cons.mp hx with h | h
      · exact h
      · simpa using h
    subst hx'
    decide

/-! ## Span tiling lemmas (C2, C3) -/

theorem covers_append {a b c : Nat} {xs ys : List Span}
    (h1 : covers a xs b = true) (h2 : covers b ys c = true) :
    covers a (xs ++ ys) c = true := by
  induction xs generalizing a with
  | nil =>
    have hab : a = b := by simpa [covers] using h1
    simpa [hab] using h2
  | cons s rest ih =>
    simp only [covers, Bool.and_eq_true] at h1
    obtain ⟨⟨ho, hl⟩, hrest⟩ := h1
    simp only [List.cons_append, covers, Bool.and_eq_true]
    exact ⟨⟨ho, hl⟩, ih hrest⟩

theorem covers_single {b : Nat} {s : Span} (ho : s.offset = b)
    (hl : 0 < s.len) : covers b [s] (b + s.len) = true := by
  simp [covers, ho, hl]

theorem covers_snoc {a b : Nat} {xs : List Span} {s : Span}
    (h : covers a xs b = true) (ho : s.offset = b) (hl : 0 < s.len) :
    covers a (xs ++ [s]) (b + s.len) = true :=
  covers_append h (covers_single ho hl)

theorem padTo_offset (st : WalkState) (t : Nat) : (padTo st t).offset = st.offset := by
  unfold padTo
  split <;> rfl

theorem padTo_revGroups (st : WalkState) (t : Nat) :
    (padTo st t).revGroups = st.revGroups := by
  unfold padTo
  split <;> rfl

theorem padTo_counts (st : WalkState) (t : Nat) :
    (padTo st t).fieldNameCounts = st.fieldNameCounts := by
  unfold padTo
  split <;> rfl

theorem padTo_of_ge (st : WalkState) (t : Nat) (h : t ≤ st.offset) :
    padTo st t = st := by
  unfold padTo
  rw [if_neg (by omega)]

theorem covers_padTo {start : Nat} (st : WalkState) (t : Nat)
    (hle : st.offset ≤ t) (hcov : covers start st.spans st.offset = true) :
    covers start (padTo st t).spans t = true := by
  unfold padTo
  split
  · rename_i hlt
    have h2 : covers start (st.spans ++ [padSpan st.offset (t - st.offset)])
        (st.offset + (t - st.offset)) = true :=
      @covers_snoc start st.offset st.spans
        (padSpan st.offset (t - st.offset)) hcov rfl
        (show 0 < t - st.offset by omega)
    have h3 : st.offset + (t - st.offset) = t := by omega
    rw [h3] at h2
    exact h2
  · rename_i hge
    have : st.offset = t := by omega
    simpa [this] using hcov

theorem emitFieldStep_offset (st : WalkState) (p : PropNode)
    (info : PropertyInfo) (raw : String) (kind : SpanKind) :
    (emitFieldStep st p info raw kind).offset =
      p.offset + p.element_size * p.array_dim := by
  unfold emitFieldStep
  cases get_unique_name st.fieldNameCounts (scrub_reserved_name raw)
  rfl

theorem emitFieldStep_revGroups (st : WalkState) (p : PropNode)
    (info : PropertyInfo) (raw : String) (kind : SpanKind) :
    (emitFieldStep st p info raw kind).revGroups = st.revGroups := by
  unfold emitFieldStep
  cases get_unique_name st.fieldNameCounts (scrub_reserved_name raw)
  rfl

theorem emitFieldStep_spans (st : WalkState) (p : PropNode)
    (info : PropertyInfo) (raw : String) (kind : SpanKind) :
    ∃ nm ty, (emitFieldStep st p info raw kind).spans =
      st.spans ++ [⟨kind, nm, ty, p.offset, p.element_size * p.array_dim⟩] := by
  unfold emitFieldStep
  cases get_unique_name st.fieldNameCounts (scrub_reserved_name raw)
  exact ⟨_, _, rfl⟩

theorem mem_insertBy {α : Type} (le : α → α → Bool) (x y : α) (l : List α) :
    y ∈ insertBy le x l ↔ y = x ∨ y ∈ l := by
  induction l with
  | nil => simp [insertBy]
  | cons z zs ih =>
    unfold insertBy
    split
    · simp
    · simp only [List.mem_cons, ih]
      tauto

theorem mem_sortBy {α : Type} (le : α → α → Bool) (y : α) (l : List α) :
    y ∈ sortBy le l ↔ y ∈ l := by
  induction l with
  | nil => simp [sortBy]
  | cons z zs ih =>
    unfold sortBy
    rw [mem_insertBy, ih]
    simp

theorem mem_sortedFields {sd : StructNode} {p : PropNode}
    (hp : p ∈ sortedFields sd) :
    baseOffset sd ≤ p.offset ∧ 0 < p.element_size := by
  unfold sortedFields get_fields at hp
  rw [mem_sortBy] at hp
  simp only [List.mem_filterMap] at hp
  obtain ⟨c, _, hc⟩ := hp
  cases c with
  | property q =>
    simp only at hc
    split at hc
    · rename_i hcond
      cases hc
      simp only [Bool.and_eq_true, decide_eq_true_eq] at hcond
      exact ⟨hcond.2, by simpa using hcond.1⟩
    · cases hc
  | typeDef => cases hc
  | funcDef f => cases hc


theorem totalSize_pos {p : PropNode} (hesz : 0 < p.element_size)
    (hdim : 1 ≤ p.array_dim) : 0 < totalSize p :=
  Nat.mul_pos hesz hdim

theorem addFieldsGo_invariant (size : Nat) (ps : List PropNode) :
    ∀ (st : WalkState) (start : Nat) (st' : WalkState),
      addFieldsGo st ps = .ok st' →
      covers start st.spans st.offset = true →
      st.offset ≤ size →
      (∀ g, headGroupOffset st = some g → g + 4 ≤ st.offset) →
      HeadOk st ps →
      (∀ p ∈ ps, wfProp size p) →
      List.Chain' wfStep ps →
      covers start st'.spans st'.offset = true ∧ st'.offset ≤ size := by
  induction ps with
  | nil =>
    intro st start st' h hcov hle _ _ _ _
    have hst : st = st' := Except.ok.inj h
    subst hst
    exact ⟨hcov, hle⟩
  | cons p ps ih =>
    intro st start st' h hcov hle hhead hHeadOk hwf hchain
    have hwfp : wfProp size p := hwf p (List.mem_cons_self p ps)
    obtain ⟨hesz, hdim, hfit, hbool4⟩ := hwfp
    have hwf' : ∀ q ∈ ps, wfProp size q :=
      fun q hq => hwf q (List.mem_cons_of_mem p hq)
    have hchain' : List.Chain' wfStep ps := hchain.tail
    have hHO : st.offset ≤ p.offset ∨
        (p.isBool = true ∧ headGroupOffset st = some p.offset ∧
          p.offset + 4 = st.offset) := hHeadOk
    rw [addFieldsGo] at h
    cases htf : PropertyInfo.try_from p with
    | error e =>
      rw [htf] at h
      simp [Except.mapError, exc_bind_err] at h
    | ok info =>
      rw [htf] at h
      simp only [Except.mapError, exc_bind_ok] at h
      by_cases hsm : ((p.element_size * p.array_dim : Nat) : Int) -
          ((info.size * p.array_dim : Nat) : Int) ≠ 0
      · rw [if_pos hsm] at h
        exact absurd h (by simp)
      · rw [if_neg hsm] at h
        cases hname : get_name p.name with
        | error e =>
          rw [hname] at h
          simp [Except.mapError, exc_bind_err] at h
        | ok nm =>
          rw [hname] at h
          simp only [Except.mapError, exc_bind_ok] at h
          have emit : ∀ (groups : List BitGroup) (raw : String) (kind : SpanKind),
              st.offset ≤ p.offset →
              (∀ g, (groups.head?.map BitGroup.offset) = some g →
                g + 4 ≤ p.offset + totalSize p) →
              HeadOk (emitFieldStep {(padTo st p.offset) with revGroups := groups}
                p info raw kind) ps →
              addFieldsGo (emitFieldStep {(padTo st p.offset) with revGroups := groups}
                p info raw kind) ps = .ok st' →
              covers start st'.spans st'.offset = true ∧ st'.offset ≤ size := by
            intro groups raw kind hoff hheadNew hHeadOkNew hgo
            set st1 := padTo st p.offset with hst1
            set st2 : WalkState := {st1 with revGroups := groups} with hst2
            have hcov1 : covers start st1.spans p.offset = true :=
              covers_padTo st p.offset hoff hcov
            obtain ⟨nm2, ty2, hspans⟩ := emitFieldStep_spans st2 p info raw kind
            have hcov3 : covers start (emitFieldStep st2 p info raw kind).spans
                ((emitFieldStep st2 p info raw kind).offset) = true := by
              rw [hspans, emitFieldStep_offset]
              exact @covers_snoc start p.offset st2.spans _ hcov1 rfl
                (totalSize_pos hesz hdim)
            have hoff3 : (emitFieldStep st2 p info raw kind).offset =
                p.offset + totalSize p := emitFieldStep_offset st2 p info raw kind
            have hle3 : (emitFieldStep st2 p info raw kind).offset ≤ size := by
              rw [hoff3]; exact hfit
            have hhead3 : ∀ g, headGroupOffset (emitFieldStep st2 p info raw kind) =
                some g → g + 4 ≤ (emitFieldStep st2 p info raw kind).offset := by
              intro g hg
              rw [hoff3]
              apply hheadNew
              rw [← hg]
              unfold headGroupOffset
              rw [emitFieldStep_revGroups]
            exact ih (emitFieldStep st2 p info raw kind) start st' hgo hcov3 hle3
              hhead3 hHeadOkNew hwf' hchain'
          cases hbm : p.boolMask with
          | none =>
            rw [hbm] at h
            have hnotbool : p.isBool = false := by
              unfold PropNode.isBool
              rw [hbm]
              rfl
            have hoff : st.offset ≤ p.offset := by
              rcases hHO with hA | ⟨hb, _, _⟩
              · exact hA
              · rw [hnotbool] at hb; cases hb
            have hstruct : ({padTo st p.offset with
                revGroups := st.revGroups} : WalkState) = padTo st p.offset := by
              rw [← padTo_revGroups st p.offset]
            have hheadNew : ∀ g, (st.revGroups.head?.map BitGroup.offset) = some g →
                g + 4 ≤ p.offset + totalSize p := by
              intro g hg
              have := hhead g hg
              have htp := totalSize_pos hesz hdim
              omega
            have hHeadOkNew : HeadOk (emitFieldStep
                {(padTo st p.offset) with revGroups := st.revGroups}
                p info nm .field) ps := by
              cases ps with
              | nil => exact trivial
              | cons q ps0 =>
                rcases (List.chain'_cons.mp hchain).1 with hsep | ⟨hpb, _, _⟩
                · exact Or.inl (by
                    rw [hstruct, emitFieldStep_offset]
                    exact hsep)
                · rw [hnotbool] at hpb; cases hpb
            refine emit st.revGroups nm .field hoff hheadNew hHeadOkNew ?_
            rw [hstruct]
            exact h
          | some m =>
            rw [hbm] at h
            rw [padTo_revGroups] at h
            have hisbool : p.isBool = true := by
              unfold PropNode.isBool
              rw [hbm]
              rfl
            obtain ⟨hesz4, hdim1⟩ := hbool4 hisbool
            have htot : totalSize p = 4 := by
              unfold totalSize
              rw [hesz4, hdim1]
            cases hrg : st.revGroups with
            | nil =>
              rw [hrg] at h
              simp only [bitfieldsAdd] at h
              have hoff : st.offset ≤ p.offset := by
                rcases hHO with hA | ⟨_, hB, _⟩
                · exact hA
                · unfold headGroupOffset at hB
                  rw [hrg] at hB
                  simp at hB
              have hheadNew : ∀ g,
                  (([⟨p.offset, [nm]⟩] : List BitGroup).head?.map BitGroup.offset) =
                    some g → g + 4 ≤ p.offset + totalSize p := by
                intro g hg
                simp at hg
                rw [htot, ← hg]
              have hHeadOkNew : HeadOk (emitFieldStep
                  {(padTo st p.offset) with revGroups := [⟨p.offset, [nm]⟩]}
                  p info bitfieldFIELD .backing) ps := by
                cases ps with
                | nil => exact trivial
                | cons q ps0 =>
                  rcases (List.chain'_cons.mp hchain).1 with hsep | ⟨_, hqb, hqo⟩
                  · exact Or.inl (by rw [emitFieldStep_offset]; exact hsep)
                  · refine Or.inr ⟨hqb, ?_, ?_⟩
                    · unfold headGroupOffset
                      rw [emitFieldStep_revGroups]
                      simp [hqo]
                    · rw [emitFieldStep_offset, hqo]
                      have : p.element_size * p.array_dim = 4 := htot
                      omega
              exact emit [⟨p.offset, [nm]⟩] bitfieldFIELD .backing hoff hheadNew
                hHeadOkNew h
            | cons g rest =>
              rw [hrg] at h
              simp only [bitfieldsAdd] at h
              by_cases hgoff : g.offset = p.offset
              · rw [if_pos hgoff] at h
                simp only at h
                have hh : g.offset + 4 ≤ st.offset := by
                  apply hhead
                  unfold headGroupOffset
                  rw [hrg]
                  rfl
                have hBcase : p.offset + 4 = st.offset := by
                  rcases hHO with hA | ⟨_, _, hB⟩
                  · omega
                  · exact hB
                have hnopad : padTo st p.offset = st :=
                  padTo_of_ge st p.offset (by omega)
                rw [hnopad] at h
                have hcovS : covers start
                    ({st with revGroups :=
                      (⟨g.offset, g.fields ++ [nm]⟩ : BitGroup) :: rest} :
                        WalkState).spans
                    ({st with revGroups :=
                      (⟨g.offset, g.fields ++ [nm]⟩ : BitGroup) :: rest} :
                        WalkState).offset = true := hcov
                have hheadS : ∀ g2, headGroupOffset
                    ({st with revGroups :=
                      (⟨g.offset, g.fields ++ [nm]⟩ : BitGroup) :: rest} :
                        WalkState) = some g2 →
                    g2 + 4 ≤ st.offset := by
                  intro g2 hg2
                  unfold headGroupOffset at hg2
                  simp at hg2
                  omega
                have hHeadOkS : HeadOk
                    ({st with revGroups :=
                      (⟨g.offset, g.fields ++ [nm]⟩ : BitGroup) :: rest} :
                        WalkState) ps := by
                  cases ps with
                  | nil => exact trivial
                  | cons q ps0 =>
                    rcases (List.chain'_cons.mp hchain).1 with hsep | ⟨_, hqb, hqo⟩
                    · refine Or.inl ?_
                      have : p.element_size * p.array_dim = 4 := htot
                      show st.offset ≤ q.offset
                      unfold totalSize at hsep
                      omega
                    · refine Or.inr ⟨hqb, ?_, ?_⟩
                      · unfold headGroupOffset
                        simp [hqo, hgoff]
                      · show q.offset + 4 = st.offset
                        omega
                exact ih _ start st' h hcovS hle hheadS hHeadOkS hwf' hchain'
              · rw [if_neg hgoff] at h
                simp only at h
                have hoff : st.offset ≤ p.offset := by
                  rcases hHO with hA | ⟨_, hB, _⟩
                  · exact hA
                  · unfold headGroupOffset at hB
                    rw [hrg] at hB
                    simp at hB
                    exact absurd hB hgoff
                have hheadNew : ∀ g2,
                    (((⟨p.offset, [nm]⟩ : BitGroup) :: g :: rest).head?.map
                      BitGroup.offset) = some g2 →
                    g2 + 4 ≤ p.offset + totalSize p := by
                  intro g2 hg2
                  simp at hg2
                  rw [htot, ← hg2]
                have hHeadOkNew : HeadOk (emitFieldStep
                    {(padTo st p.offset) with
                      revGroups := (⟨p.offset, [nm]⟩ : BitGroup) :: g :: rest}
                    p info bitfieldFIELD .backing) ps := by
                  cases ps with
                  | nil => exact trivial
                  | cons q ps0 =>
                    rcases (List.chain'_cons.mp hchain).1 with hsep | ⟨_, hqb, hqo⟩
                    · exact Or.inl (by rw [emitFieldStep_offset]; exact hsep)
                    · refine Or.inr ⟨hqb, ?_, ?_⟩
                      · unfold headGroupOffset
                        rw [emitFieldStep_revGroups]
                        simp [hqo]
                      · rw [emitFieldStep_offset, hqo]
                        have : p.element_size * p.array_dim = 4 := htot
                        omega
                exact emit ((⟨p.offset, [nm]⟩ : BitGroup) :: g :: rest)
                  bitfieldFIELD .backing hoff hheadNew hHeadOkNew h

theorem add_fields_eq (offset : Nat) (spans : List Span) (props : List PropNode) :
    add_fields offset spans props = addFieldsGo ⟨offset, spans, [], []⟩ props := rfl

theorem finish_spans (size : Nat) (st : WalkState) (start : Nat)
    (hcov : covers start st.spans st.offset = true) (hle : st.offset ≤ size) :
    covers start
      (if st.offset < size then
        st.spans ++ [padSpan st.offset (size - st.offset)] else st.spans)
      size = true := by
  by_cases hlt : st.offset < size
  · rw [if_pos hlt]
    have h2 : covers start (st.spans ++ [padSpan st.offset (size - st.offset)])
        (st.offset + (size - st.offset)) = true :=
      @covers_snoc start st.offset st.spans (padSpan st.offset (size - st.offset))
        hcov rfl (show 0 < size - st.offset by omega)
    have h3 : st.offset + (size - st.offset) = size := by omega
    rw [h3] at h2
    exact h2
  · rw [if_neg hlt]
    have : st.offset = size := by omega
    rw [← this]
    exact hcov

theorem walk_from_base (sd : StructNode) (baseSpans : List Span)
    (st : WalkState)
    (hprops : ∀ p ∈ sortedFields sd, wfProp sd.property_size p)
    (hchain : List.Chain' wfStep (sortedFields sd))
    (hcov0 : covers 0 baseSpans (baseOffset sd) = true)
    (hble : baseOffset sd ≤ sd.property_size)
    (haf : add_fields (baseOffset sd) baseSpans (sortedFields sd) = .ok st) :
    covers 0 st.spans st.offset = true ∧ st.offset ≤ sd.property_size := by
  rw [add_fields_eq] at haf
  apply addFieldsGo_invariant sd.property_size (sortedFields sd)
    ⟨baseOffset sd, baseSpans, [], []⟩ 0 st haf hcov0 hble
  · intro g hg
    simp [headGroupOffset] at hg
  · cases hps : sortedFields sd with
    | nil => exact trivial
    | cons q ps0 =>
      refine Or.inl ?_
      show baseOffset sd ≤ q.offset
      have hq : q ∈ sortedFields sd := by
        rw [hps]; exact List.mem_cons_self q ps0
      exact (mem_sortedFields hq).1
  · exact hprops
  · exact hchain

/-- C2: for every well-formed struct, the spans emitted by `write_structure`
— the optional base-class span, field spans, padding spans, and one 4-byte
backing span per bitfield group — are contiguous, non-overlapping, strictly
increasing in offset, and exactly cover the byte range from 0 to the
struct's declared size, the last span ending exactly at the declared size. -/
theorem c2_spans_tile (sd : StructNode) (out : StructOut)
    (hwf : wfStruct sd) (h : write_structure sd = .ok out) :
    covers 0 out.spans sd.property_size = true := by
  obtain ⟨hsuper, hprops, hchain⟩ := hwf
  unfold write_structure at h
  cases hrd : resolve_duplicate sd.name sd.outers with
  | error e =>
    rw [hrd] at h
    simp [Except.mapError, exc_bind_err] at h
  | ok name =>
    rw [hrd] at h
    simp only [Except.mapError, exc_bind_ok] at h
    cases hfn : get_name sd.fullName with
    | error e =>
      rw [hfn] at h
      simp [Except.mapError, exc_bind_err] at h
    | ok fullName =>
      rw [hfn] at h
      simp only [Except.mapError, exc_bind_ok] at h
      cases hsf : sd.super_field with
      | none =>
        rw [hsf] at h
        simp only [exc_bind_ok, exc_pure] at h
        have hb : baseOffset sd = 0 := by
          unfold baseOffset
          rw [hsf]
        cases haf : add_fields (baseOffset sd) []
            (get_fields sd.children (baseOffset sd)) with
        | error e =>
          rw [haf] at h
          simp [exc_bind_err] at h
        | ok st =>
          rw [haf] at h
          simp only [exc_bind_ok, exc_pure] at h
          obtain ⟨hcovst, hlest⟩ : covers 0 st.spans st.offset = true ∧
              st.offset ≤ sd.property_size := by
            apply walk_from_base sd [] st hprops hchain
            · rw [hb]
              simp [covers]
            · omega
            · exact haf
          have hout := Except.ok.inj h
          rw [← hout]
          exact finish_spans sd.property_size st 0 hcovst hlest
      | some s =>
        rw [hsf] at h
        simp only [exc_bind_ok, exc_pure] at h
        cases hsn : get_name s.name with
        | error e =>
          rw [hsn] at h
          simp [Except.mapError, exc_bind_err] at h
        | ok superName =>
          rw [hsn] at h
          simp only [Except.mapError, exc_bind_ok, exc_pure] at h
          have hb : baseOffset sd = s.property_size := by
            unfold baseOffset
            rw [hsf]
          have hsup : 0 < s.property_size ∧ s.property_size ≤ sd.property_size := by
            have := hsuper
            unfold wfSuper at this
            rw [hsf] at this
            exact this
          cases haf : add_fields (baseOffset sd)
              [⟨SpanKind.base, "base", superName, 0, baseOffset sd⟩]
              (get_fields sd.children (baseOffset sd)) with
          | error e =>
            rw [haf] at h
            simp [exc_bind_err] at h
          | ok st =>
            rw [haf] at h
            simp only [exc_bind_ok, exc_pure] at h
            obtain ⟨hcovst, hlest⟩ : covers 0 st.spans st.offset = true ∧
                st.offset ≤ sd.property_size := by
              apply walk_from_base sd
                [⟨SpanKind.base, "base", superName, 0, baseOffset sd⟩] st
                hprops hchain
              · have hc : covers 0
                    [⟨SpanKind.base, "base", superName, 0, baseOffset sd⟩]
                    (0 + baseOffset sd) = true :=
                  covers_single rfl (by rw [hb]; exact hsup.1)
                simpa using hc
              · rw [hb]
                exact hsup.2
              · exact haf
            have hout := Except.ok.inj h
            rw [← hout]
            exact finish_spans sd.property_size st 0 hcovst hlest

/-- Witness for C2 at Scenario A (int Health at 0, float Mana at 4,
declared size 12). -/
theorem c2_witness : covers 0 scenarioAOut.spans 12 = true :=
  c2_spans_tile scenarioA scenarioAOut
    ⟨by decide, by decide, by
      have hsf : sortedFields scenarioA =
          [.intProp ⟨some "Health", 1, 4, 0⟩,
           .floatProp ⟨some "Mana", 1, 4, 4⟩] := by rfl
      rw [hsf]
      exact List.chain'_cons.mpr ⟨by decide, List.chain'_singleton _⟩⟩
    (by rfl)

end Blps

namespace Blps

theorem filter_backing_pad (spans : List Span) (offset size : Nat) :
    (spans ++ [padSpan offset size]).filter (fun s => s.kind == SpanKind.backing) =
      spans.filter (fun s => s.kind == SpanKind.backing) := by
  rw [List.filter_append]
  simp [padSpan]

theorem padTo_filter_backing (st : WalkState) (t : Nat) :
    (padTo st t).spans.filter (fun s => s.kind == SpanKind.backing) =
      st.spans.filter (fun s => s.kind == SpanKind.backing) := by
  unfold padTo
  split
  · exact filter_backing_pad st.spans st.offset (t - st.offset)
  · rfl

theorem boolOffsets_cons_bool {p : PropNode} (ps : List PropNode)
    (hb : p.isBool = true) : boolOffsets (p :: ps) = p.offset :: boolOffsets ps := by
  unfold boolOffsets
  simp [hb]

theorem boolOffsets_cons_nonbool {p : PropNode} (ps : List PropNode)
    (hb : p.isBool = false) : boolOffsets (p :: ps) = boolOffsets ps := by
  unfold boolOffsets
  simp [hb]

theorem addSigRev_nil_cons (o : Nat) (os : List Nat) :
    addSigRev [] (o :: os) = addSigRev [(o, 1)] os := rfl

theorem addSigRev_cons_cons (gf gs : Nat) (rest : List (Nat × Nat)) (o : Nat)
    (os : List Nat) :
    addSigRev ((gf, gs) :: rest) (o :: os) =
      if gf = o then addSigRev ((gf, gs + 1) :: rest) os
      else addSigRev ((o, 1) :: (gf, gs) :: rest) os := rfl

theorem backingAdds_cons (ho : Option Nat) (o : Nat) (os : List Nat) :
    backingAdds ho (o :: os) =
      if ho = some o then backingAdds ho os
      else (o, 4) :: backingAdds (some o) os := rfl

theorem addFieldsGo_sig (ps : List PropNode) :
    ∀ (st st' : WalkState), addFieldsGo st ps = .ok st' →
      (∀ p ∈ ps, p.isBool = true → p.element_size = 4 ∧ p.array_dim = 1) →
      st'.revGroups.map groupSig =
        addSigRev (st.revGroups.map groupSig) (boolOffsets ps) ∧
      (st'.spans.filter (fun s => s.kind == SpanKind.backing)).map
          (fun s => (s.offset, s.len)) =
        (st.spans.filter (fun s => s.kind == SpanKind.backing)).map
            (fun s => (s.offset, s.len)) ++
          backingAdds (headGroupOffset st) (boolOffsets ps) := by
  induction ps with
  | nil =>
    intro st st' h _
    have hst : st = st' := Except.ok.inj h
    subst hst
    simp [boolOffsets, addSigRev, backingAdds]
  | cons p ps ih =>
    intro st st' h hboolwf
    have hboolwf' : ∀ q ∈ ps, q.isBool = true →
        q.element_size = 4 ∧ q.array_dim = 1 :=
      fun q hq => hboolwf q (List.mem_cons_of_mem p hq)
    rw [addFieldsGo] at h
    cases htf : PropertyInfo.try_from p with
    | error e =>
      rw [htf] at h
      simp [Except.mapError, exc_bind_err] at h
    | ok info =>
      rw [htf] at h
      simp only [Except.mapError, exc_bind_ok] at h
      by_cases hsm : ((p.element_size * p.array_dim : Nat) : Int) -
          ((info.size * p.array_dim : Nat) : Int) ≠ 0
      · rw [if_pos hsm] at h
        exact absurd h (by simp)
      · rw [if_neg hsm] at h
        cases hname : get_name p.name with
        | error e =>
          rw [hname] at h
          simp [Except.mapError, exc_bind_err] at h
        | ok nm =>
          rw [hname] at h
          simp only [Except.mapError, exc_bind_ok] at h
          cases hbm : p.boolMask with
          | none =>
            rw [hbm] at h
            have hnotbool : p.isBool = false := by
              unfold PropNode.isBool
              rw [hbm]
              rfl
            obtain ⟨hsig, hspans⟩ := ih _ _ h hboolwf'
            rw [boolOffsets_cons_nonbool ps hnotbool]
            constructor
            · rw [hsig, emitFieldStep_revGroups, padTo_revGroups]
            · rw [hspans]
              have hgfix : headGroupOffset
                  (emitFieldStep (padTo st p.offset) p info nm .field) =
                    headGroupOffset st := by
                unfold headGroupOffset
                rw [emitFieldStep_revGroups, padTo_revGroups]
              rw [hgfix]
              obtain ⟨nm2, ty2, hsp⟩ :=
                emitFieldStep_spans (padTo st p.offset) p info nm .field
              rw [hsp]
              rw [List.filter_append]
              simp only [List.filter_cons, List.filter_nil]
              rw [padTo_filter_backing]
              simp
          | some m =>
            rw [hbm] at h
            rw [padTo_revGroups] at h
            have hisbool : p.isBool = true := by
              unfold PropNode.isBool
              rw [hbm]
              rfl
            obtain ⟨hesz4, hdim1⟩ := hboolwf p (List.mem_cons_self p ps) hisbool
            have htot : p.element_size * p.array_dim = 4 := by
              rw [hesz4, hdim1]
            rw [boolOffsets_cons_bool ps hisbool]
            cases hrg : st.revGroups with
            | nil =>
              rw [hrg] at h
              simp only [bitfieldsAdd] at h
              obtain ⟨hsig, hspans⟩ := ih _ _ h hboolwf'
              constructor
              · rw [hsig, emitFieldStep_revGroups]
                rfl
              · rw [hspans]
                have hgnew : headGroupOffset (emitFieldStep
                    {(padTo st p.offset) with revGroups := [⟨p.offset, [nm]⟩]}
                    p info bitfieldFIELD .backing) = some p.offset := by
                  unfold headGroupOffset
                  rw [emitFieldStep_revGroups]
                  rfl
                rw [hgnew]
                obtain ⟨nm2, ty2, hsp⟩ := emitFieldStep_spans
                  {(padTo st p.offset) with revGroups := [⟨p.offset, [nm]⟩]}
                  p info bitfieldFIELD .backing
                rw [hsp]
                rw [List.filter_append]
                simp only [List.filter_cons, List.filter_nil]
                have hold : headGroupOffset st = none := by
                  unfold headGroupOffset
                  rw [hrg]
                  rfl
                rw [hold]
                rw [backingAdds_cons]
                have hne : ¬((none : Option Nat) = some p.offset) :=
                  fun hc => Option.noConfusion hc
                rw [if_neg hne]
                rw [padTo_filter_backing]
                simp [htot]
            | cons g rest =>
              rw [hrg] at h
              simp only [bitfieldsAdd] at h
              have holdhead : headGroupOffset st = some g.offset := by
                unfold headGroupOffset
                rw [hrg]
                rfl
              by_cases hgoff : g.offset = p.offset
              · rw [if_pos hgoff] at h
                simp only at h
                obtain ⟨hsig, hspans⟩ := ih _ _ h hboolwf'
                constructor
                · rw [hsig]
                  simp only [List.map_cons, groupSig, List.length_append,
                    List.length_cons, List.length_nil]
                  rw [← hgoff]
                  rw [addSigRev_cons_cons, if_pos rfl]
                · rw [hspans]
                  have hghead : headGroupOffset
                      ({(padTo st p.offset) with revGroups :=
                        (⟨g.offset, g.fields ++ [nm]⟩ : BitGroup) :: rest} :
                          WalkState) = some g.offset := by
                    unfold headGroupOffset
                    rfl
                  rw [hghead, holdhead]
                  rw [backingAdds_cons]
                  rw [if_pos (by rw [hgoff])]
                  have : ({(padTo st p.offset) with revGroups :=
                      (⟨g.offset, g.fields ++ [nm]⟩ : BitGroup) :: rest} :
                        WalkState).spans = (padTo st p.offset).spans := rfl
                  rw [this, padTo_filter_backing]
              · rw [if_neg hgoff] at h
                simp only at h
                obtain ⟨hsig, hspans⟩ := ih _ _ h hboolwf'
                constructor
                · rw [hsig, emitFieldStep_revGroups]
                  simp only [List.map_cons, groupSig]
                  rw [addSigRev_cons_cons, if_neg hgoff]
                  rfl
                · rw [hspans]
                  have hgnew : headGroupOffset (emitFieldStep
                      {(padTo st p.offset) with revGroups :=
                        (⟨p.offset, [nm]⟩ : BitGroup) :: g :: rest}
                      p info bitfieldFIELD .backing) = some p.offset := by
                    unfold headGroupOffset
                    rw [emitFieldStep_revGroups]
                    rfl
                  rw [hgnew, holdhead]
                  obtain ⟨nm2, ty2, hsp⟩ := emitFieldStep_spans
                    {(padTo st p.offset) with revGroups :=
                      (⟨p.offset, [nm]⟩ : BitGroup) :: g :: rest}
                    p info bitfieldFIELD .backing
                  rw [hsp]
                  rw [List.filter_append]
                  simp only [List.filter_cons, List.filter_nil]
                  rw [backingAdds_cons]
                  rw [if_neg (fun hc => hgoff (Option.some.inj hc))]
                  rw [padTo_filter_backing]
                  simp [htot]

end Blps

namespace Blps

theorem addSigRev_runs (os : List Nat) :
    ∀ (g : Nat × Nat) (rest : List (Nat × Nat)),
      (addSigRev (g :: rest) os).reverse = rest.reverse ++ offsetRunsFrom g os := by
  induction os with
  | nil =>
    intro g rest
    simp [addSigRev, offsetRunsFrom]
  | cons o os ih =>
    intro g rest
    rw [addSigRev_cons_cons g.fst g.snd rest o os]
    unfold offsetRunsFrom
    by_cases hgo : g.fst = o
    · rw [if_pos hgo, if_pos hgo.symm]
      exact ih (g.fst, g.snd + 1) rest
    · rw [if_neg hgo, if_neg (fun hc => hgo hc.symm)]
      rw [ih (o, 1) (g :: rest)]
      simp

theorem addSigRev_nil_runs (os : List Nat) :
    (addSigRev [] os).reverse = offsetRuns os := by
  cases os with
  | nil => rfl
  | cons o os =>
    rw [addSigRev_nil_cons]
    have := addSigRev_runs os (o, 1) []
    simpa [offsetRuns] using this

theorem backingAdds_runsFrom (os : List Nat) :
    ∀ (o n : Nat),
      (offsetRunsFrom (o, n) os).map (fun r => (r.fst, 4)) =
        (o, 4) :: backingAdds (some o) os := by
  induction os with
  | nil =>
    intro o n
    simp [offsetRunsFrom, backingAdds]
  | cons o2 os ih =>
    intro o n
    unfold offsetRunsFrom
    rw [backingAdds_cons]
    by_cases h2 : o2 = o
    · rw [if_pos h2, if_pos (by rw [h2])]
      exact ih o (n + 1)
    · rw [if_neg h2, if_neg (fun hc => h2 (Option.some.inj hc).symm)]
      rw [List.map_cons, ih o2 1]

theorem backingAdds_none_runs (os : List Nat) :
    (offsetRuns os).map (fun r => (r.fst, 4)) = backingAdds none os := by
  cases os with
  | nil => rfl
  | cons o os =>
    unfold offsetRuns
    rw [backingAdds_cons]
    rw [if_neg (fun hc => Option.noConfusion hc)]
    exact backingAdds_runsFrom os o 1

theorem filter_backing_finish (st : WalkState) (size : Nat) :
    ((if st.offset < size then
        st.spans ++ [padSpan st.offset (size - st.offset)]
      else st.spans).filter fun s => s.kind == SpanKind.backing) =
      st.spans.filter fun s => s.kind == SpanKind.backing := by
  split
  · exact filter_backing_pad _ _ _
  · rfl

theorem walk_groups (sd : StructNode) (baseSpans : List Span) (st : WalkState)
    (hbool : ∀ p ∈ sortedFields sd, p.isBool = true →
      p.element_size = 4 ∧ p.array_dim = 1)
    (hbase : baseSpans.filter (fun s => s.kind == SpanKind.backing) = [])
    (haf : add_fields (baseOffset sd) baseSpans (sortedFields sd) = .ok st) :
    (st.revGroups.reverse.map groupSig =
        offsetRuns (boolOffsets (sortedFields sd))) ∧
      (st.spans.filter (fun s => s.kind == SpanKind.backing)).map
          (fun s => (s.offset, s.len)) =
        (offsetRuns (boolOffsets (sortedFields sd))).map
          (fun r => (r.fst, 4)) := by
  rw [add_fields_eq] at haf
  obtain ⟨hsig, hspans⟩ := addFieldsGo_sig (sortedFields sd) _ st haf hbool
  constructor
  · rw [List.map_reverse, hsig]
    simp only [List.map_nil]
    exact addSigRev_nil_runs (boolOffsets (sortedFields sd))
  · rw [hspans]
    have hh : headGroupOffset
        (⟨baseOffset sd, baseSpans, [], []⟩ : WalkState) = none := rfl
    rw [hh]
    show (baseSpans.filter fun s => s.kind == SpanKind.backing).map
        (fun s => (s.offset, s.len)) ++
        backingAdds none (boolOffsets (sortedFields sd)) = _
    rw [hbase]
    rw [← backingAdds_none_runs]
    simp

end Blps

namespace Blps

/-- C3 (amended): during the sorted property walk, every maximal run of
equal-offset boolean properties forms exactly one bitfield group at that
offset with one packed field per boolean, and the emitted backing fields are
exactly one 4-byte span per group at the group's offset — provided every
boolean is a scalar `u32` bool (`element_size = 4`, `array_dim = 1`); the
cursor then advances 4 bytes once per group, not per bit. (Padding before
the first group is still emitted when the struct does not start at the
group's offset.) -/
theorem c3_bitfield_groups (sd : StructNode) (out : StructOut)
    (hbool : ∀ p ∈ sortedFields sd, p.isBool = true →
      p.element_size = 4 ∧ p.array_dim = 1)
    (h : write_structure sd = .ok out) :
    out.groups.map groupSig = offsetRuns (boolOffsets (sortedFields sd)) ∧
      (out.spans.filter (fun s => s.kind == SpanKind.backing)).map
          (fun s => (s.offset, s.len)) =
        (offsetRuns (boolOffsets (sortedFields sd))).map
          (fun r => (r.fst, 4)) := by
  unfold write_structure at h
  cases hrd : resolve_duplicate sd.name sd.outers with
  | error e =>
    rw [hrd] at h
    simp [Except.mapError, exc_bind_err] at h
  | ok name =>
    rw [hrd] at h
    simp only [Except.mapError, exc_bind_ok] at h
    cases hfn : get_name sd.fullName with
    | error e =>
      rw [hfn] at h
      simp [Except.mapError, exc_bind_err] at h
    | ok fullName =>
      rw [hfn] at h
      simp only [Except.mapError, exc_bind_ok] at h
      cases hsf : sd.super_field with
      | none =>
        rw [hsf] at h
        simp only [exc_bind_ok, exc_pure] at h
        cases haf : add_fields (baseOffset sd) []
            (get_fields sd.children (baseOffset sd)) with
        | error e =>
          rw [haf] at h
          simp [exc_bind_err] at h
        | ok st =>
          rw [haf] at h
          simp only [exc_bind_ok, exc_pure] at h
          obtain ⟨hg, hs⟩ := walk_groups sd [] st hbool (by rfl) haf
          have hout := Except.ok.inj h
          rw [← hout]
          exact ⟨hg, by rw [filter_backing_finish st sd.property_size]; exact hs⟩
      | some s =>
        rw [hsf] at h
        simp only [exc_bind_ok, exc_pure] at h
        cases hsn : get_name s.name with
        | error e =>
          rw [hsn] at h
          simp [Except.mapError, exc_bind_err] at h
        | ok superName =>
          rw [hsn] at h
          simp only [Except.mapError, exc_bind_ok, exc_pure] at h
          cases haf : add_fields (baseOffset sd)
              [⟨SpanKind.base, "base", superName, 0, baseOffset sd⟩]
              (get_fields sd.children (baseOffset sd)) with
          | error e =>
            rw [haf] at h
            simp [exc_bind_err] at h
          | ok st =>
            rw [haf] at h
            simp only [exc_bind_ok, exc_pure] at h
            obtain ⟨hg, hs⟩ := walk_groups sd
              [⟨SpanKind.base, "base", superName, 0, baseOffset sd⟩] st hbool
              (by rfl) haf
            have hout := Except.ok.inj h
            rw [← hout]
            exact ⟨hg, by rw [filter_backing_finish st sd.property_size]; exact hs⟩

/-- C3 counterexample: on Scenario B itself (three booleans at `0x10`,
declared size `0x14`, no superclass) the output does contain a padding span
lying before `0x14` — the gap `[0, 0x10)` between the struct start and the
bitfield group — so "no padding span before 0x14" is false as stated; the
group and its single 4-byte backing at `0x10` are as claimed. -/
theorem c3_counterexample :
    write_structure scenarioB = .ok scenarioBOut ∧
      scenarioBOut.spans.filter (fun s => s.kind == SpanKind.pad) =
        [padSpan 0 0x10] ∧
      (padSpan 0 0x10).offset + (padSpan 0 0x10).len ≤ 0x14 ∧
      scenarioBOut.groups = [⟨0x10, ["bA", "bB", "bC"]⟩] :=
  ⟨rfl, rfl, by decide, rfl⟩

/-- Witness for C3 at Scenario B: one group of three fields at `0x10`,
one backing span `(0x10, 4)`. -/
theorem c3_witness :
    (scenarioBOut.groups.map groupSig =
        offsetRuns (boolOffsets (sortedFields scenarioB))) ∧
      (scenarioBOut.spans.filter (fun s => s.kind == SpanKind.backing)).map
          (fun s => (s.offset, s.len)) =
        (offsetRuns (boolOffsets (sortedFields scenarioB))).map
          (fun r => (r.fst, 4)) :=
  c3_bitfield_groups scenarioB scenarioBOut (by decide) (by rfl)

end Blps
